import Mathlib

/-!
Verification of the transcription/translation pipeline of the
Audio_Video_Transcriber repository.  The Python source (src/utils.py,
src/app.py) is shallowly embedded: external services (langdetect, tiktoken,
the OpenAI endpoints, the mp3 encoder) are modelled as oracle parameters,
and the pure control flow of the repository's functions is translated
directly.
-/

namespace AVT

/-! ## Python string primitives -/

/-- Whitespace in the sense of Python's `str.strip` / regex `\s`
(ASCII part, which is what this program's inputs exercise). -/
def isPySpace (c : Char) : Bool :=
  c = ' ' || c = '\t' || c = '\n' || c = '\r' || c = '\x0b' || c = '\x0c'

/-- Python `s.strip()` on a character list. -/
def pyStripL (l : List Char) : List Char :=
  ((l.dropWhile isPySpace).reverse.dropWhile isPySpace).reverse

/-- Python `s.strip()` on a string. -/
def pyStrip (s : String) : String :=
  String.mk (pyStripL s.data)

/-- Python slicing `s[:n]`. -/
def pySlice (s : String) (n : Nat) : String :=
  String.mk (s.data.take n)

/-- Python `c.lower()` for one character, on the alphabets this program
inspects (ASCII letters and Russian Cyrillic, including Ё). -/
def pyLowerChar (c : Char) : Char :=
  if 'A' ≤ c ∧ c ≤ 'Z' then Char.ofNat (c.toNat + 32)
  else if 'А' ≤ c ∧ c ≤ 'Я' then Char.ofNat (c.toNat + 32)
  else if c = 'Ё' then 'ё'
  else c

/-- Python `s.lower()`. -/
def pyLower (s : String) : String :=
  String.mk (s.data.map pyLowerChar)

/-- Does the first list occur at the head of the second? -/
def listPrefixTest : List Char → List Char → Bool
  | [], _ => true
  | _ :: _, [] => false
  | a :: as, b :: bs => a = b && listPrefixTest as bs

/-- Does the first list occur contiguously anywhere in the second? -/
def listSubTest (needle : List Char) : List Char → Bool
  | [] => listPrefixTest needle []
  | hay@(_ :: rest) => listPrefixTest needle hay || listSubTest needle rest

/-- Python substring test `needle in hay`. -/
def strContains (hay needle : String) : Bool :=
  listSubTest needle.data hay.data

/-! ## LanguageDetector (utils.detect_language) -/

/-- `any('가' <= c <= '힣' for c in s)`: Hangul syllables. -/
def containsHangul (s : String) : Bool :=
  s.data.any fun c => 0xAC00 ≤ c.toNat && c.toNat ≤ 0xD7A3

/-- `any('぀' <= c <= 'ヿ' for c in s)`: Hiragana and Katakana. -/
def containsHiraKata (s : String) : Bool :=
  s.data.any fun c => 0x3040 ≤ c.toNat && c.toNat ≤ 0x30FF

/-- `any('一' <= c <= '鿿' for c in s)`: CJK unified ideographs. -/
def containsCJK (s : String) : Bool :=
  s.data.any fun c => 0x4E00 ≤ c.toNat && c.toNat ≤ 0x9FFF

/-- The English stopword/domain-term list detect_language checks against
a statistical result of "ru". -/
def engWords : List String :=
  ["the", "and", "you", "is", "are", "this", "that", "what", "where",
   "when", "how", "fibonacci", "trend", "level", "market", "usd",
   "uptrend", "continue", "profit"]

/-- The common Russian words detect_language checks against a statistical
result of "mk". -/
def rusWords : List String :=
  ["это", "привет", "спасибо", "пожалуйста", "да", "нет",
   "говорить", "русский"]

/-- Oracle for `langdetect.detect`: returns a language code or raises
`LangDetectException` (modelled as `Except.error ()`). -/
def DetectOracle : Type := String → Except Unit String

/-- The `try`/`except LangDetectException` body of `utils.detect_language`,
as a function of the sample and of the outcome of the statistical
detector. -/
def detect_language_core (sample_text : String) : Except Unit String → String
  | .ok lang_code =>
      -- statistical "ru" but obvious English words present -> "en"
      if lang_code = "ru" ∧ engWords.any (fun w => strContains (pyLower sample_text) w) then "en"
      -- Hangul code points -> "ko"
      else if containsHangul sample_text then "ko"
      -- Hiragana/Katakana code points -> "ja"
      else if containsHiraKata sample_text then "ja"
      -- statistical "mk" but common Russian words present -> "ru"
      else if lang_code = "mk" ∧ rusWords.any (fun w => strContains (pyLower sample_text) w) then "ru"
      else lang_code
  | .error _ =>
      -- script-range fallbacks on detection failure
      if containsHangul sample_text then "ko"
      else if containsHiraKata sample_text then "ja"
      else if containsCJK sample_text then "zh"
      else "unknown"

/-- Shallow embedding of `utils.detect_language`.  The statistical detector
is the oracle `det`; `pySlice text 1000` is the source's `sample_text`. -/
def detect_language (det : DetectOracle) (text : String) : String :=
  -- `if not text or text.strip() == "": return "unknown"`
  if text = "" ∨ pyStrip text = "" then "unknown"
  else detect_language_core (pySlice text 1000) (det (pySlice text 1000))

/-! ## TranslationDecider (app.process_uploaded_file, translation step) -/

/-- Oracle for `utils.translate_text_gpt`: an external LLM call taking the
text and the requested target-language name. -/
def TranslateOracle : Type := String → String → String

/-- Result of the translation-decision step of `app.process_uploaded_file`. -/
structure TranslateOutcome where
  origCode : String
  targetCode : String
  needTranslate : Bool
  output : String
deriving Repr, DecidableEq

/-- `lang_map = {"русский": "ru", "казахский": "kk", "английский": "en"}`,
looked up with default "ru": `lang_map.get(target_language.lower(), "ru")`. -/
def lang_map_get (t : String) : String :=
  if t = "русский" then "ru"
  else if t = "казахский" then "kk"
  else if t = "английский" then "en"
  else "ru"

/-- The whitelist `["ru", "kk", "en", "ko", "ja", "zh"]` checked before
re-detection in `app.process_uploaded_file`. -/
def knownCodes : List String := ["ru", "kk", "en", "ko", "ja", "zh"]

/-- `orig_lang_code = original_language.lower() if original_language else
"unknown"` (the empty string is falsy in Python). -/
def orig_code_raw (original_language : Option String) : String :=
  match original_language with
  | none => "unknown"
  | some l => if l = "" then "unknown" else pyLower l

/-- The re-detection guard: if the raw code is "unknown" or not in the
whitelist, run detect_language on the transcription. -/
def orig_lang_code_of (det : DetectOracle) (original_language : Option String)
    (transcription : String) : String :=
  if orig_code_raw original_language = "unknown"
      ∨ orig_code_raw original_language ∉ knownCodes then
    detect_language det transcription
  else orig_code_raw original_language

/-- Shallow embedding of the language-decision / translation step of
`app.process_uploaded_file`: computes `need_translate = (orig_lang_code !=
target_lang_code)` and calls `translate_text_gpt` exactly when it is true,
otherwise passes the transcription through verbatim. -/
def decide_translation (det : DetectOracle) (tr : TranslateOracle)
    (original_language : Option String) (transcription target_language : String) :
    TranslateOutcome :=
  { origCode := orig_lang_code_of det original_language transcription
    targetCode := lang_map_get (pyLower target_language)
    needTranslate := orig_lang_code_of det original_language transcription
      != lang_map_get (pyLower target_language)
    output :=
      if orig_lang_code_of det original_language transcription
          != lang_map_get (pyLower target_language) then
        tr transcription target_language
      else transcription }

/-! ## TextChunker (utils.split_text via langchain CharacterTextSplitter) -/

/-- `re.sub(r'\s+', ' ', text)`: every maximal whitespace run becomes a
single space. -/
def collapseWS : List Char → List Char
  | [] => []
  | [c] => if isPySpace c then [' '] else [c]
  | c :: d :: t =>
    if isPySpace c then
      (if isPySpace d then collapseWS (d :: t) else ' ' :: collapseWS (d :: t))
    else c :: collapseWS (d :: t)

/-- `re.sub(r'\s+', ' ', text).strip()` from utils.split_text. -/
def normalizeText (l : List Char) : List Char :=
  pyStripL (collapseWS l)

/-- `re.split(" ", text)`: langchain `_split_text_with_regex` before its
empty-string filter. -/
def splitOnSpace : List Char → List (List Char)
  | [] => [[]]
  | c :: rest =>
    if c = ' ' then [] :: splitOnSpace rest
    else
      match splitOnSpace rest with
      | [] => [[c]]
      | w :: ws => (c :: w) :: ws

/-- The splits fed to `_merge_splits`: `[s for s in splits if s != ""]`. -/
def wordsOf (l : List Char) : List (List Char) :=
  (splitOnSpace l).filter (fun w => !w.isEmpty)

/-- `separator.join(docs)` with separator `" "`. -/
def joinWords (ws : List (List Char)) : List Char :=
  (ws.intersperse [' ']).flatten

/-- langchain `_join_docs`: join with the separator, strip whitespace, and
return None when the result is empty. -/
def joinDocs (ws : List (List Char)) : Option (List Char) :=
  if pyStripL (joinWords ws) = [] then none else some (pyStripL (joinWords ws))

/-- The inner `while` loop of langchain `_merge_splits`, popping words off
the front of `current_doc` after a chunk is emitted.  `L` is the length of
the incoming split; `total` mirrors the source's running length.  (With an
empty `current_doc` the source's loop condition is false because `total`
is 0, which the `[]` case returns directly.) -/
def popLoop (S O L : Nat) : List (List Char) → Nat → List (List Char) × Nat
  | [], total => ([], total)
  | w :: rest, total =>
    if total > O ∨ (total + L + 1 > S ∧ total > 0) then
      popLoop S O L rest (total - (w.length + if rest = [] then 0 else 1))
    else (w :: rest, total)

/-- The main loop of langchain `_merge_splits`, with separator `" "`
(separator length 1): accumulate splits into `current_doc`, emitting a
joined chunk and popping down to the overlap whenever the next split would
overflow `chunk_size`. -/
def mergeGo (S O : Nat) :
    List (List Char) → List (List Char) → Nat → List (List Char) → List (List Char)
  | docs, cur, _, [] =>
    (match joinDocs cur with
     | none => docs
     | some d => docs ++ [d])
  | docs, cur, total, w :: rest =>
    if total + w.length + (if cur = [] then 0 else 1) > S ∧ cur ≠ [] then
      let docs2 := match joinDocs cur with | none => docs | some d => docs ++ [d]
      let p := popLoop S O w.length cur total
      mergeGo S O docs2 (p.1 ++ [w]) (p.2 + w.length + if p.1 = [] then 0 else 1) rest
    else
      mergeGo S O docs (cur ++ [w]) (total + w.length + if cur = [] then 0 else 1) rest

/-- langchain `CharacterTextSplitter.split_text` on already-split words. -/
def mergeSplits (S O : Nat) (splits : List (List Char)) : List (List Char) :=
  mergeGo S O [] [] 0 splits

/-- Shallow embedding of `utils.split_text`: normalize whitespace, split on
spaces, drop empty splits, and merge into chunks of at most `chunk_size`
characters with `chunk_overlap` characters of overlap. -/
def split_text (text : List Char) (chunk_size chunk_overlap : Nat) : List (List Char) :=
  mergeSplits chunk_size chunk_overlap (wordsOf (normalizeText text))

/-- The running length `total` maintained by `_merge_splits`: word lengths
plus one separator between adjacent words. -/
def docLen : List (List Char) → Nat
  | [] => 0
  | [w] => w.length
  | w :: x :: t => w.length + 1 + docLen (x :: t)

/-- The window of words `[a, b)`. -/
def sliceW (ws : List (List Char)) (a b : Nat) : List (List Char) :=
  (ws.drop a).take (b - a)

/-- The non-overlapping spans of a chunk-window list: span `i` is the part
of chunk `i` after the overlap with chunk `i-1`, i.e. words
`[b_(i-1), b_i)` (with `b_0 = 0`). -/
def nonOverlapParts (ws : List (List Char)) (ivs : List (Nat × Nat)) :
    List (List (List Char)) :=
  ((0 :: ivs.map Prod.snd).zip (ivs.map Prod.snd)).map
    (fun ab => sliceW ws ab.1 ab.2)

/-- Well-formedness of the split words: nonempty and whitespace-free (true
of `wordsOf (normalizeText t)` for every `t`). -/
def GoodWords (ws : List (List Char)) : Prop :=
  ∀ w ∈ ws, w ≠ [] ∧ ∀ c ∈ w, isPySpace c = false

/-! ## SummaryPipeline gating (utils.num_tokens_from_string, app.create_handbook) -/

/-- Oracle for `tiktoken.encoding_for_model(model).name`; `none` models the
`KeyError` raised for an unknown model. -/
def EncForModel : Type := String → Option String

/-- Oracle for `tiktoken.get_encoding(name).encode`. -/
def GetEncoding : Type := String → List Char → List Nat

/-- Shallow embedding of `utils.num_tokens_from_string`: the encoded length
plus 10, computed with the model's encoding or with cl100k_base on
`KeyError`. -/
def num_tokens_from_string (efm : EncForModel) (ge : GetEncoding)
    (string : List Char) (model : String) : Nat :=
  match efm model with
  | some name => (ge name string).length + 10
  | none => (ge "cl100k_base" string).length + 10

/-- Oracle for `utils.generate_answer` under the fixed sectioning prompts of
`app.create_handbook`. -/
def AnswerOracle : Type := List Char → List Char

/-- Shallow embedding of `utils.process_text_chunks`: process each chunk in
order, appending each answer plus a blank line. -/
def process_text_chunks (ans : AnswerOracle) (chunks : List (List Char)) : List Char :=
  chunks.foldl (fun acc c => acc ++ ans c ++ ['\n', '\n']) []

/-- The sectioning stage of `app.create_handbook`: one call when the token
count is under 16000, otherwise chunked via split_text(30000, 1000). -/
def create_handbook_md (efm : EncForModel) (ge : GetEncoding)
    (ans : AnswerOracle) (text : List Char) : List Char :=
  if num_tokens_from_string efm ge text "gpt-4o-mini" < 16000 then ans text
  else process_text_chunks ans (split_text text 30000 1000)

/-- The gate condition selecting the chunked branch of create_handbook. -/
def create_handbook_usesChunks (efm : EncForModel) (ge : GetEncoding)
    (text : List Char) : Prop :=
  ¬ num_tokens_from_string efm ge text "gpt-4o-mini" < 16000

instance (efm : EncForModel) (ge : GetEncoding) (text : List Char) :
    Decidable (create_handbook_usesChunks efm ge text) :=
  inferInstanceAs (Decidable (¬ _ < _))

/-! ## TranscriptionEngine / AudioSegmenter (utils.transcribe_audio_whisper) -/

/-- A transcription-endpoint response: the transcript text and the
best-effort `language` attribute (absent or empty both count as missing in
the source's truthiness test). -/
structure ChunkResp where
  text : String
  language : Option String
deriving Repr, DecidableEq

instance {e a : Type} [DecidableEq e] [DecidableEq a] : DecidableEq (Except e a) :=
  fun x y =>
    match x, y with
    | .ok u, .ok v =>
        if h : u = v then isTrue (by rw [h]) else
          isFalse (fun hh => h (by cases hh; rfl))
    | .error u, .error v =>
        if h : u = v then isTrue (by rw [h]) else
          isFalse (fun hh => h (by cases hh; rfl))
    | .ok _, .error _ => isFalse (fun hh => Except.noConfusion hh)
    | .error _, .ok _ => isFalse (fun hh => Except.noConfusion hh)

/-- Environment of `transcribe_audio_whisper`: the audio length in
milliseconds, the encoder (size in bytes of the mp3 export of
`audio[offset : offset + maxDur]`), and the endpoint
(`openai.audio.transcriptions.create` on that same slice, which may raise
`BadRequestError`, modelled as `Except.error ()`). -/
structure TransEnv where
  audioLen : Nat
  size : Nat → Nat → Nat
  api : Nat → Nat → Except Unit ChunkResp

/-- Loop state of `transcribe_audio_whisper`; `submitted` and `chunks` are
ghost fields recording every `(offset, maxDur)` pair sent to the endpoint
and every accepted chunk as `(start offset, actual duration)`. -/
structure TState where
  offset : Nat
  maxDur : Nat
  chunkIndex : Nat
  transcriptions : List String
  detectedLanguage : Option String
  submitted : List (Nat × Nat)
  chunks : List (Nat × Nat)
deriving Repr, DecidableEq

/-- The first-chunk language logic: `if not response_language or
response_language == "unknown"` fall back to detect_language on the chunk's
text, else keep the API-reported language. -/
def firstLang (det : DetectOracle) (r : ChunkResp) : String :=
  match r.language with
  | none => detect_language det r.text
  | some rl => if rl = "" ∨ rl = "unknown" then detect_language det r.text else rl

/-- One iteration of the `while current_start_time < len(audio)` loop. -/
inductive StepOut where
  | oversize (s : TState)
  | rejected (s : TState)
  | advanced (s : TState)
  | finished (s : TState)
deriving Repr, DecidableEq

/-- One iteration of the chunking loop of `transcribe_audio_whisper`:
export the slice; if its encoded size exceeds 26000000 bytes discard it and
shrink `max_duration` to `int(max_duration * 0.8)` (for the durations this
program uses, exactly `maxDur * 4 / 5`) keeping the same offset; otherwise
submit it, breaking the loop on `BadRequestError` and advancing the offset
by `max_duration` on success. -/
def transStep (env : TransEnv) (det : DetectOracle) (s : TState) : StepOut :=
  if s.offset < env.audioLen then
    if 26000000 < env.size s.offset s.maxDur then
      .oversize { s with maxDur := s.maxDur * 4 / 5 }
    else
      match env.api s.offset s.maxDur with
      | .error _ =>
          .rejected { s with submitted := s.submitted ++ [(s.offset, s.maxDur)] }
      | .ok r =>
          .advanced { s with
            offset := s.offset + s.maxDur
            chunkIndex := s.chunkIndex + 1
            transcriptions := s.transcriptions ++ [r.text]
            detectedLanguage :=
              match s.detectedLanguage with
              | some l => some l
              | none => some (firstLang det r)
            submitted := s.submitted ++ [(s.offset, s.maxDur)]
            chunks := s.chunks ++ [(s.offset, min s.maxDur (env.audioLen - s.offset))] }
  else .finished s

/-- The chunking loop, run with explicit fuel; `none` means the loop has
not terminated within `fuel` iterations. -/
def transLoop (env : TransEnv) (det : DetectOracle) : Nat → TState → Option TState
  | 0, _ => none
  | fuel + 1, s =>
    match transStep env det s with
    | .oversize t => transLoop env det fuel t
    | .advanced t => transLoop env det fuel t
    | .rejected t => some t
    | .finished t => some t

/-- Initial state: offset 0, the `max_duration` argument, chunk index 1. -/
def initTState (maxDur : Nat) : TState :=
  ⟨0, maxDur, 1, [], none, [], []⟩

/-- After the loop: `result_text = "\n".join(transcriptions)` is written to
the save folder and returned, and a final language fallback runs
detect_language on the full text when the language is still unset, empty or
"unknown". -/
def finalizeTrans (det : DetectOracle) (s : TState) : String × String :=
  (String.intercalate "\n" s.transcriptions,
   match s.detectedLanguage with
   | none => detect_language det (String.intercalate "\n" s.transcriptions)
   | some l =>
       if l = "" ∨ l = "unknown" then
         detect_language det (String.intercalate "\n" s.transcriptions)
       else l)

/-- Shallow embedding of `utils.transcribe_audio_whisper` (fuelled): the
returned pair is (saved/returned transcript text, detected language). -/
def transcribe_audio_whisper (env : TransEnv) (det : DetectOracle)
    (maxDur fuel : Nat) : Option (String × String) :=
  (transLoop env det fuel (initTState maxDur)).map (finalizeTrans det)

/-- Contiguity of accepted chunks: each starts where the previous ended. -/
def ContiguousFrom : Nat → List (Nat × Nat) → Prop
  | _, [] => True
  | a, (st, d) :: rest => st = a ∧ ContiguousFrom (a + d) rest

/-- Invariant of the chunking loop: submitted chunk files fit under the
ceiling, and the accepted chunks tile `[0, min offset audioLen)`. -/
def LoopInv (env : TransEnv) (s : TState) : Prop :=
  (∀ p ∈ s.submitted, env.size p.1 p.2 ≤ 26000000)
  ∧ ContiguousFrom 0 s.chunks
  ∧ (s.chunks.map Prod.snd).sum = min s.offset env.audioLen

/-- The loop state after `j` successful chunks when every encoded size is
within the ceiling (so `max_duration` never shrinks). -/
def runState (env : TransEnv) (det : DetectOracle) (resp : Nat → ChunkResp)
    (D j : Nat) : TState :=
  { offset := j * D
    maxDur := D
    chunkIndex := j + 1
    transcriptions := (List.range j).map fun i => (resp i).text
    detectedLanguage := if j = 0 then none else some (firstLang det (resp 0))
    submitted := (List.range j).map fun i => (i * D, D)
    chunks := (List.range j).map fun i => (i * D, min D (env.audioLen - i * D)) }

/-- A 2 ms audio whose endpoint accepts the first chunk and rejects the
second: used to exhibit a terminating run whose accepted chunks do not
cover the source. -/
def envRejectSecond : TransEnv :=
  { audioLen := 2
    size := fun _ _ => 0
    api := fun off _ => if off = 0 then .ok ⟨"t", some "en"⟩ else .error () }

/-- A 1 ms audio with a pathological encoder: every slice of nonzero
duration encodes above the ceiling while an empty slice encodes to 0 bytes.
The shrink loop drives `max_duration` to 0 and the loop then re-submits an
empty chunk at offset 0 forever. -/
def envPathological : TransEnv :=
  { audioLen := 1
    size := fun _ d => if d = 0 then 0 else 27000000
    api := fun _ _ => .ok ⟨"", none⟩ }

/-! ## Lemmas about the string primitives -/

theorem pyStripL_eq_nil (l : List Char) :
    pyStripL l = [] ↔ ∀ c ∈ l, isPySpace c := by
  unfold pyStripL
  rw [List.reverse_eq_nil_iff, List.dropWhile_eq_nil_iff]
  constructor
  · intro h c hc
    have hsplit := List.takeWhile_append_dropWhile isPySpace l
    rw [← hsplit] at hc
    rcases List.mem_append.1 hc with h1 | h1
    · exact List.mem_takeWhile_imp h1
    · exact h c (List.mem_reverse.2 h1)
  · intro h c hc
    exact h c ((List.dropWhile_sublist _).subset (List.mem_reverse.1 hc))

theorem mk_eq_empty (l : List Char) : String.mk l = "" ↔ l = [] := by
  constructor
  · intro h; exact congrArg String.data h
  · intro h; rw [h]

theorem pyStrip_eq_empty (s : String) :
    pyStrip s = "" ↔ ∀ c ∈ s.data, isPySpace c := by
  rw [pyStrip, mk_eq_empty, pyStripL_eq_nil]

theorem pySlice_pySlice (s : String) (n : Nat) :
    pySlice (pySlice s n) n = pySlice s n := by
  simp [pySlice, List.take_take]

theorem pyStrip_sample_ne (s : String) (h : pyStrip (pySlice s 1000) ≠ "") :
    pyStrip s ≠ "" := by
  intro hs
  apply h
  rw [pyStrip_eq_empty] at *
  intro c hc
  exact hs c (List.take_subset 1000 s.data hc)

/-! ## Claim C5 and C6 theorems -/

/-- C5 counterexample: the English-stopword correction runs before the
script-range overrides, so a sample containing Hangul does not always yield
"ko": on "안녕 the" with the statistical detector reporting "ru",
detect_language returns "en". -/
theorem detect_language_script_override_cex :
    containsHangul (pySlice "안녕 the" 1000) = true
    ∧ detect_language (fun _ => Except.ok "ru") "안녕 the" = "en"
    ∧ "en" ≠ "ko" := by
  refine ⟨by decide, ?_, by decide⟩
  decide

/-- C5 (amended): provided the statistical pass does not trigger the
ru-plus-English-stopwords correction (which runs first), a Hangul code point
in the first-1000-character sample forces "ko" and, failing Hangul, a
Hiragana/Katakana code point forces "ja", whether the statistical pass
succeeds or fails; in particular detect_language("안녕하세요") = "ko" and
detect_language("こんにちは") = "ja" for every statistical oracle. -/
theorem detect_language_script_override (det : DetectOracle) (text : String)
    (h0 : pyStrip text ≠ "")
    (h1 : ¬(det (pySlice text 1000) = Except.ok "ru"
            ∧ engWords.any (fun w => strContains (pyLower (pySlice text 1000)) w) = true)) :
    (containsHangul (pySlice text 1000) = true → detect_language det text = "ko")
    ∧ (containsHangul (pySlice text 1000) = false →
        containsHiraKata (pySlice text 1000) = true → detect_language det text = "ja")
    ∧ detect_language det "안녕하세요" = "ko"
    ∧ detect_language det "こんにちは" = "ja" := by
  have hne : ¬(text = "" ∨ pyStrip text = "") := by
    rintro (h | h)
    · exact h0 (by rw [h]; rfl)
    · exact h0 h
  refine ⟨?_, ?_, ?_, ?_⟩
  · intro hh
    rw [detect_language, if_neg hne]
    cases hdet : det (pySlice text 1000) with
    | ok lc =>
        have hcond : ¬(lc = "ru"
            ∧ (engWords.any fun w => strContains (pyLower (pySlice text 1000)) w) = true) :=
          fun hcon => h1 ⟨by rw [hdet, hcon.1], hcon.2⟩
        simp only [detect_language_core]
        rw [if_neg hcond, if_pos hh]
    | error e =>
        simp only [detect_language_core]
        rw [if_pos hh]
  · intro hh hj
    rw [detect_language, if_neg hne]
    cases hdet : det (pySlice text 1000) with
    | ok lc =>
        have hcond : ¬(lc = "ru"
            ∧ (engWords.any fun w => strContains (pyLower (pySlice text 1000)) w) = true) :=
          fun hcon => h1 ⟨by rw [hdet, hcon.1], hcon.2⟩
        simp only [detect_language_core]
        rw [if_neg hcond, if_neg (by simp [hh]), if_pos hj]
    | error e =>
        simp only [detect_language_core]
        rw [if_neg (by simp [hh]), if_pos hj]
  · rw [detect_language, if_neg (by decide)]
    cases hdet : det (pySlice "안녕하세요" 1000) with
    | ok lc =>
        have hcond : ¬(lc = "ru"
            ∧ (engWords.any fun w => strContains (pyLower (pySlice "안녕하세요" 1000)) w) = true) :=
          fun hcon => absurd hcon.2 (by decide)
        simp only [detect_language_core]
        rw [if_neg hcond, if_pos (by decide)]
    | error e =>
        simp only [detect_language_core]
        rw [if_pos (by decide)]
  · rw [detect_language, if_neg (by decide)]
    cases hdet : det (pySlice "こんにちは" 1000) with
    | ok lc =>
        have hcond : ¬(lc = "ru"
            ∧ (engWords.any fun w => strContains (pyLower (pySlice "こんにちは" 1000)) w) = true) :=
          fun hcon => absurd hcon.2 (by decide)
        simp only [detect_language_core]
        rw [if_neg hcond, if_neg (by decide), if_pos (by decide)]
    | error e =>
        simp only [detect_language_core]
        rw [if_neg (by decide), if_pos (by decide)]

theorem detect_language_script_override_witness :
    (containsHangul (pySlice "안녕하세요" 1000) = true →
        detect_language (fun _ => Except.error ()) "안녕하세요" = "ko")
    ∧ (containsHangul (pySlice "안녕하세요" 1000) = false →
        containsHiraKata (pySlice "안녕하세요" 1000) = true →
        detect_language (fun _ => Except.error ()) "안녕하세요" = "ja")
    ∧ detect_language (fun _ => Except.error ()) "안녕하세요" = "ko"
    ∧ detect_language (fun _ => Except.error ()) "こんにちは" = "ja" :=
  detect_language_script_override (fun _ => Except.error ()) "안녕하세요"
    (by decide) (fun h => Except.noConfusion h.1)

/-- C6: detect_language is total; whitespace-only (in particular empty) text
yields "unknown"; the result depends only on the first 1000 characters
(whenever the sample is not itself all-whitespace); and on an exception from
the statistical detector it falls back to the script checks Hangul → "ko",
Hiragana/Katakana → "ja", CJK ideographs → "zh", returning "unknown" only
when none matches. -/
theorem detect_language_total (det : DetectOracle) (text : String) :
    (pyStrip text = "" → detect_language det text = "unknown")
    ∧ (pyStrip (pySlice text 1000) ≠ "" →
        detect_language det text = detect_language det (pySlice text 1000))
    ∧ (pyStrip text ≠ "" → det (pySlice text 1000) = Except.error () →
        detect_language det text =
          (if containsHangul (pySlice text 1000) then "ko"
           else if containsHiraKata (pySlice text 1000) then "ja"
           else if containsCJK (pySlice text 1000) then "zh"
           else "unknown")) := by
  refine ⟨?_, ?_, ?_⟩
  · intro h
    rw [detect_language, if_pos (Or.inr h)]
  · intro h
    have h0 : pyStrip text ≠ "" := pyStrip_sample_ne text h
    have hne : ¬(text = "" ∨ pyStrip text = "") := by
      rintro (hh | hh)
      · exact h0 (by rw [hh]; rfl)
      · exact h0 hh
    have hne2 : ¬(pySlice text 1000 = "" ∨ pyStrip (pySlice text 1000) = "") := by
      rintro (hh | hh)
      · exact h (by rw [hh]; rfl)
      · exact h hh
    rw [detect_language, detect_language, if_neg hne, if_neg hne2,
      pySlice_pySlice]
  · intro h0 herr
    have hne : ¬(text = "" ∨ pyStrip text = "") := by
      rintro (hh | hh)
      · exact h0 (by rw [hh]; rfl)
      · exact h0 hh
    rw [detect_language, if_neg hne, herr]
    simp only [detect_language_core]

theorem detect_language_total_witness :
    (detect_language (fun _ => Except.error ()) "  " = "unknown")
    ∧ (detect_language (fun _ => Except.error ()) "안녕" =
        detect_language (fun _ => Except.error ()) (pySlice "안녕" 1000))
    ∧ (detect_language (fun _ => Except.error ()) "hello" =
        (if containsHangul (pySlice "hello" 1000) then "ko"
         else if containsHiraKata (pySlice "hello" 1000) then "ja"
         else if containsCJK (pySlice "hello" 1000) then "zh"
         else "unknown")) :=
  ⟨(detect_language_total (fun _ => Except.error ()) "  ").1 (by decide),
   (detect_language_total (fun _ => Except.error ()) "안녕").2.1 (by decide),
   (detect_language_total (fun _ => Except.error ()) "hello").2.2 (by decide) rfl⟩

/-! ## Claim C7 theorem -/

theorem lang_map_get_mem (s : String) :
    lang_map_get s ∈ (["ru", "kk", "en"] : List String) := by
  unfold lang_map_get
  split
  · simp
  split
  · simp
  split <;> simp

/-- C7: translation is invoked exactly when the detected source language
code differs from the target code; equal codes mean no translation call and
verbatim output; the target code is always one of ru/kk/en, so a source
code of "unknown" never equals it and always forces a translation call. -/
theorem translation_decision_spec (det : DetectOracle) (tr : TranslateOracle)
    (ol : Option String) (transcription target_language : String)
    (r : TranslateOutcome)
    (hr : r = decide_translation det tr ol transcription target_language) :
    (r.needTranslate = true ↔ r.origCode ≠ r.targetCode)
    ∧ (r.origCode = r.targetCode →
        r.needTranslate = false ∧ r.output = transcription)
    ∧ r.targetCode ∈ (["ru", "kk", "en"] : List String)
    ∧ (r.origCode = "unknown" →
        r.needTranslate = true ∧ r.output = tr transcription target_language) := by
  subst hr
  refine ⟨?_, ?_, ?_, ?_⟩
  · simp [decide_translation]
  · intro h
    simp only [decide_translation] at h ⊢
    rw [h]
    simp
  · exact lang_map_get_mem _
  · intro h
    simp only [decide_translation] at h ⊢
    rw [h]
    have hmem := lang_map_get_mem (pyLower target_language)
    have hne : ("unknown" : String) ≠ lang_map_get (pyLower target_language) := by
      intro heq
      rw [← heq] at hmem
      simp at hmem
    simp [hne]

theorem translation_decision_spec_witness :
    ((decide_translation (fun _ => Except.error ()) (fun t _ => t ++ "!")
        (some "ru") "привет" "русский").needTranslate = true
      ↔ (decide_translation (fun _ => Except.error ()) (fun t _ => t ++ "!")
        (some "ru") "привет" "русский").origCode ≠
        (decide_translation (fun _ => Except.error ()) (fun t _ => t ++ "!")
        (some "ru") "привет" "русский").targetCode)
    ∧ ((decide_translation (fun _ => Except.error ()) (fun t _ => t ++ "!")
        (some "ru") "привет" "русский").origCode =
        (decide_translation (fun _ => Except.error ()) (fun t _ => t ++ "!")
        (some "ru") "привет" "русский").targetCode →
        (decide_translation (fun _ => Except.error ()) (fun t _ => t ++ "!")
        (some "ru") "привет" "русский").needTranslate = false
        ∧ (decide_translation (fun _ => Except.error ()) (fun t _ => t ++ "!")
        (some "ru") "привет" "русский").output = "привет")
    ∧ (decide_translation (fun _ => Except.error ()) (fun t _ => t ++ "!")
        (some "ru") "привет" "русский").targetCode ∈ (["ru", "kk", "en"] : List String)
    ∧ ((decide_translation (fun _ => Except.error ()) (fun t _ => t ++ "!")
        (some "ru") "привет" "русский").origCode = "unknown" →
        (decide_translation (fun _ => Except.error ()) (fun t _ => t ++ "!")
        (some "ru") "привет" "русский").needTranslate = true
        ∧ (decide_translation (fun _ => Except.error ()) (fun t _ => t ++ "!")
        (some "ru") "привет" "русский").output = "привет" ++ "!") :=
  translation_decision_spec (fun _ => Except.error ()) (fun t _ => t ++ "!")
    (some "ru") "привет" "русский" _ rfl

/-! ## Claim C10 theorem -/

/-- C10: num_tokens_from_string returns the tiktoken encoding length plus
10, using the cl100k_base encoding when the model is unknown, and never
raises (it is a total function); consequently the 16000-token gate of
create_handbook selects the chunked path exactly when the real encoded
length reaches 15990. -/
theorem num_tokens_gate (efm : EncForModel) (ge : GetEncoding)
    (s : List Char) (m : String) :
    (∀ name, efm m = some name →
      num_tokens_from_string efm ge s m = (ge name s).length + 10)
    ∧ (efm m = none →
      num_tokens_from_string efm ge s m = (ge "cl100k_base" s).length + 10)
    ∧ (∀ name, efm "gpt-4o-mini" = some name →
        (create_handbook_usesChunks efm ge s ↔ 15990 ≤ (ge name s).length))
    ∧ (efm "gpt-4o-mini" = none →
        (create_handbook_usesChunks efm ge s ↔ 15990 ≤ (ge "cl100k_base" s).length)) := by
  refine ⟨?_, ?_, ?_, ?_⟩
  · intro name h
    rw [num_tokens_from_string, h]
  · intro h
    rw [num_tokens_from_string, h]
  · intro name h
    simp only [create_handbook_usesChunks, num_tokens_from_string, h]
    omega
  · intro h
    simp only [create_handbook_usesChunks, num_tokens_from_string, h]
    omega

theorem num_tokens_gate_witness :
    num_tokens_from_string (fun _ => some "x") (fun _ _ => [1, 2]) ['a'] "gpt-4o-mini" = 12
    ∧ (create_handbook_usesChunks (fun _ => some "x") (fun _ _ => [1, 2]) ['a']
        ↔ 15990 ≤ 2) := by
  have h := num_tokens_gate (fun _ => some "x") (fun _ _ => [1, 2]) ['a'] "gpt-4o-mini"
  refine ⟨?_, ?_⟩
  · rw [h.1 "x" rfl]
    decide
  · rw [h.2.2.1 "x" rfl]
    decide

/-! ## Transcription-loop lemmas -/

theorem transStep_oversize_eq (env : TransEnv) (det : DetectOracle) (s : TState)
    (hlt : s.offset < env.audioLen) (hsz : 26000000 < env.size s.offset s.maxDur) :
    transStep env det s = .oversize { s with maxDur := s.maxDur * 4 / 5 } := by
  rw [transStep, if_pos hlt, if_pos hsz]

theorem transStep_finished_eq (env : TransEnv) (det : DetectOracle) (s : TState)
    (hge : ¬ s.offset < env.audioLen) :
    transStep env det s = .finished s := by
  rw [transStep, if_neg hge]

theorem transStep_rejected_eq (env : TransEnv) (det : DetectOracle) (s : TState)
    (hlt : s.offset < env.audioLen) (hsz : ¬ 26000000 < env.size s.offset s.maxDur)
    (herr : env.api s.offset s.maxDur = .error ()) :
    transStep env det s
      = .rejected { s with submitted := s.submitted ++ [(s.offset, s.maxDur)] } := by
  rw [transStep, if_pos hlt, if_neg hsz, herr]

theorem transStep_advanced_eq (env : TransEnv) (det : DetectOracle) (s : TState)
    (r : ChunkResp)
    (hlt : s.offset < env.audioLen) (hsz : ¬ 26000000 < env.size s.offset s.maxDur)
    (hok : env.api s.offset s.maxDur = .ok r) :
    transStep env det s = .advanced { s with
      offset := s.offset + s.maxDur
      chunkIndex := s.chunkIndex + 1
      transcriptions := s.transcriptions ++ [r.text]
      detectedLanguage :=
        match s.detectedLanguage with
        | some l => some l
        | none => some (firstLang det r)
      submitted := s.submitted ++ [(s.offset, s.maxDur)]
      chunks := s.chunks ++ [(s.offset, min s.maxDur (env.audioLen - s.offset))] } := by
  rw [transStep, if_pos hlt, if_neg hsz, hok]

/-- Exhaustive description of one loop iteration. -/
theorem transStep_cases (env : TransEnv) (det : DetectOracle) (s : TState) :
    (s.offset < env.audioLen ∧ 26000000 < env.size s.offset s.maxDur
      ∧ transStep env det s = .oversize { s with maxDur := s.maxDur * 4 / 5 })
    ∨ (s.offset < env.audioLen ∧ env.size s.offset s.maxDur ≤ 26000000
      ∧ env.api s.offset s.maxDur = .error ()
      ∧ transStep env det s
          = .rejected { s with submitted := s.submitted ++ [(s.offset, s.maxDur)] })
    ∨ (∃ r, s.offset < env.audioLen ∧ env.size s.offset s.maxDur ≤ 26000000
      ∧ env.api s.offset s.maxDur = .ok r
      ∧ transStep env det s = .advanced { s with
          offset := s.offset + s.maxDur
          chunkIndex := s.chunkIndex + 1
          transcriptions := s.transcriptions ++ [r.text]
          detectedLanguage :=
            match s.detectedLanguage with
            | some l => some l
            | none => some (firstLang det r)
          submitted := s.submitted ++ [(s.offset, s.maxDur)]
          chunks := s.chunks ++ [(s.offset, min s.maxDur (env.audioLen - s.offset))] })
    ∨ (¬ s.offset < env.audioLen ∧ transStep env det s = .finished s) := by
  by_cases hlt : s.offset < env.audioLen
  · by_cases hsz : 26000000 < env.size s.offset s.maxDur
    · exact Or.inl ⟨hlt, hsz, transStep_oversize_eq env det s hlt hsz⟩
    · cases hapi : env.api s.offset s.maxDur with
      | error e =>
          cases e
          refine Or.inr (Or.inl ⟨hlt, Nat.not_lt.1 hsz, rfl, ?_⟩)
          exact transStep_rejected_eq env det s hlt hsz hapi
      | ok r =>
          exact Or.inr (Or.inr (Or.inl ⟨r, hlt, Nat.not_lt.1 hsz, rfl,
            transStep_advanced_eq env det s r hlt hsz hapi⟩))
  · exact Or.inr (Or.inr (Or.inr ⟨hlt, transStep_finished_eq env det s hlt⟩))

theorem contiguousFrom_append (l : List (Nat × Nat)) (a st d : Nat)
    (h : ContiguousFrom a l) (hst : st = a + (l.map Prod.snd).sum) :
    ContiguousFrom a (l ++ [(st, d)]) := by
  induction l generalizing a with
  | nil =>
      simp only [List.nil_append, ContiguousFrom]
      exact ⟨by simp at hst; omega, trivial⟩
  | cons p rest ih =>
      obtain ⟨h1, h2⟩ := h
      exact ⟨h1, ih (a + p.2) h2 (by simp at hst ⊢; omega)⟩

theorem loopInv_init (env : TransEnv) (D : Nat) : LoopInv env (initTState D) := by
  refine ⟨?_, trivial, ?_⟩
  · intro p hp
    simp [initTState] at hp
  · simp [initTState]

theorem loopInv_step (env : TransEnv) (det : DetectOracle) (s t : TState)
    (hinv : LoopInv env s) :
    (transStep env det s = .oversize t → LoopInv env t ∧ t.offset = s.offset)
    ∧ (transStep env det s = .rejected t → LoopInv env t ∧ t.offset = s.offset)
    ∧ (transStep env det s = .advanced t → LoopInv env t)
    ∧ (transStep env det s = .finished t → t = s) := by
  obtain ⟨hsub, hcont, hsum⟩ := hinv
  rcases transStep_cases env det s with
      ⟨hlt, hsz, heq⟩ | ⟨hlt, hsz, hapi, heq⟩ | ⟨r, hlt, hsz, hapi, heq⟩ | ⟨hge, heq⟩ <;>
    rw [heq] <;>
    refine ⟨?_, ?_, ?_, ?_⟩ <;> intro h <;>
    first
      | (cases h; exact ⟨⟨hsub, hcont, hsum⟩, rfl⟩)
      | (cases h
         refine ⟨⟨?_, hcont, hsum⟩, rfl⟩
         intro p hp
         rcases List.mem_append.1 hp with hp | hp
         · exact hsub p hp
         · simp at hp
           rw [hp]
           exact hsz)
      | (cases h
         refine ⟨?_, ?_, ?_⟩
         · intro p hp
           rcases List.mem_append.1 hp with hp | hp
           · exact hsub p hp
           · simp at hp
             rw [hp]
             exact hsz
         · exact contiguousFrom_append _ _ _ _ hcont (by simp; omega)
         · simp
           omega)
      | (cases h; rfl)
      | exact absurd h (by simp)

theorem transLoop_inv (env : TransEnv) (det : DetectOracle) :
    ∀ fuel (s t : TState), LoopInv env s → transLoop env det fuel s = some t →
      LoopInv env t
      ∧ ((∀ off d, env.api off d ≠ Except.error ()) → env.audioLen ≤ t.offset) := by
  intro fuel
  induction fuel with
  | zero =>
      intro s t _ h
      simp [transLoop] at h
  | succ n ih =>
      intro s t hinv hrun
      rw [transLoop] at hrun
      rcases transStep_cases env det s with
          ⟨hlt, hsz, heq⟩ | ⟨hlt, hsz, hapi, heq⟩ | ⟨r, hlt, hsz, hapi, heq⟩ | ⟨hge, heq⟩
      · rw [heq] at hrun
        exact ih _ t ((loopInv_step env det s _ hinv).1 heq).1 hrun
      · rw [heq] at hrun
        cases hrun
        refine ⟨((loopInv_step env det s _ hinv).2.1 heq).1, ?_⟩
        intro hA
        exact absurd hapi (hA _ _)
      · rw [heq] at hrun
        exact ih _ t ((loopInv_step env det s _ hinv).2.2.1 heq) hrun
      · rw [heq] at hrun
        cases hrun
        exact ⟨hinv, fun _ => Nat.le_of_not_lt hge⟩

/-! ## Claim C1 theorems -/

/-- C1 counterexample: on a 2 ms audio whose endpoint rejects the second
chunk, transcribe_audio_whisper terminates but the accepted chunk durations
sum to 1 ms, not the full 2 ms source duration, so the partition clause of
the claim fails on a terminating run. -/
theorem transcribe_partition_cex :
    (transLoop envRejectSecond (fun _ => Except.error ()) 10 (initTState 1)).map
        (fun t => ((t.chunks.map Prod.snd).sum, t.transcriptions)) = some (1, ["t"])
    ∧ envRejectSecond.audioLen = 2
    ∧ (transcribe_audio_whisper envRejectSecond (fun _ => Except.error ()) 1 10).map
        Prod.fst = some "t" := by
  decide

/-- C1 (amended): every chunk file submitted to the endpoint has encoded
size at most the 26000000-byte ceiling; an oversize encode discards the
chunk, shrinks `max_duration` to `int(0.8 * max_duration)` and retries the
same offset; the offset advances only on a successful within-ceiling
encode; and provided the endpoint rejects no chunk, the accepted chunk
durations partition the total source duration contiguously and in order.
(On an endpoint rejection the run still terminates but the accepted chunks
cover only a prefix of the source.) -/
theorem transcribe_chunk_ceiling_partition (env : TransEnv) (det : DetectOracle)
    (D fuel : Nat) (fs : TState)
    (hrun : transLoop env det fuel (initTState D) = some fs) :
    (∀ p ∈ fs.submitted, env.size p.1 p.2 ≤ 26000000)
    ∧ (∀ s : TState, s.offset < env.audioLen → 26000000 < env.size s.offset s.maxDur →
        transStep env det s = .oversize { s with maxDur := s.maxDur * 4 / 5 })
    ∧ (∀ s t : TState, transStep env det s = .advanced t →
        env.size s.offset s.maxDur ≤ 26000000
        ∧ t.offset = s.offset + s.maxDur
        ∧ t.chunks = s.chunks ++ [(s.offset, min s.maxDur (env.audioLen - s.offset))])
    ∧ (∀ s t : TState,
        transStep env det s = .oversize t ∨ transStep env det s = .rejected t →
        t.offset = s.offset ∧ t.chunks = s.chunks)
    ∧ ((∀ off d, env.api off d ≠ Except.error ()) →
        ContiguousFrom 0 fs.chunks ∧ (fs.chunks.map Prod.snd).sum = env.audioLen) := by
  have hmain := transLoop_inv env det fuel (initTState D) fs (loopInv_init env D) hrun
  refine ⟨hmain.1.1, ?_, ?_, ?_, ?_⟩
  · intro s hlt hsz
    exact transStep_oversize_eq env det s hlt hsz
  · intro s t h
    rcases transStep_cases env det s with
        ⟨hlt, hsz, heq⟩ | ⟨hlt, hsz, hapi, heq⟩ | ⟨r, hlt, hsz, hapi, heq⟩ | ⟨hge, heq⟩ <;>
      rw [heq] at h <;> cases h
    exact ⟨hsz, rfl, rfl⟩
  · intro s t h
    rcases transStep_cases env det s with
        ⟨hlt, hsz, heq⟩ | ⟨hlt, hsz, hapi, heq⟩ | ⟨r, hlt, hsz, hapi, heq⟩ | ⟨hge, heq⟩ <;>
      rcases h with h | h <;> rw [heq] at h <;> cases h <;> exact ⟨rfl, rfl⟩
  · intro hA
    have hsum := hmain.1.2.2
    have hoff := hmain.2 hA
    refine ⟨hmain.1.2.1, ?_⟩
    rw [hsum]
    omega

theorem transcribe_chunk_ceiling_partition_witness :
    (∀ p ∈ (⟨1, 1, 2, ["t"], some "en", [(0, 1)], [(0, 1)]⟩ : TState).submitted,
        (⟨1, fun _ _ => 0, fun _ _ => Except.ok ⟨"t", some "en"⟩⟩ : TransEnv).size p.1 p.2
          ≤ 26000000)
    ∧ (∀ s : TState,
        s.offset < (⟨1, fun _ _ => 0, fun _ _ => Except.ok ⟨"t", some "en"⟩⟩ : TransEnv).audioLen →
        26000000 < (⟨1, fun _ _ => 0, fun _ _ => Except.ok ⟨"t", some "en"⟩⟩ : TransEnv).size
          s.offset s.maxDur →
        transStep (⟨1, fun _ _ => 0, fun _ _ => Except.ok ⟨"t", some "en"⟩⟩ : TransEnv)
          (fun _ => Except.error ()) s = .oversize { s with maxDur := s.maxDur * 4 / 5 })
    ∧ (∀ s t : TState,
        transStep (⟨1, fun _ _ => 0, fun _ _ => Except.ok ⟨"t", some "en"⟩⟩ : TransEnv)
          (fun _ => Except.error ()) s = .advanced t →
        (⟨1, fun _ _ => 0, fun _ _ => Except.ok ⟨"t", some "en"⟩⟩ : TransEnv).size
          s.offset s.maxDur ≤ 26000000
        ∧ t.offset = s.offset + s.maxDur
        ∧ t.chunks = s.chunks ++ [(s.offset,
            min s.maxDur ((⟨1, fun _ _ => 0, fun _ _ => Except.ok ⟨"t", some "en"⟩⟩ :
              TransEnv).audioLen - s.offset))])
    ∧ (∀ s t : TState,
        transStep (⟨1, fun _ _ => 0, fun _ _ => Except.ok ⟨"t", some "en"⟩⟩ : TransEnv)
          (fun _ => Except.error ()) s = .oversize t
        ∨ transStep (⟨1, fun _ _ => 0, fun _ _ => Except.ok ⟨"t", some "en"⟩⟩ : TransEnv)
          (fun _ => Except.error ()) s = .rejected t →
        t.offset = s.offset ∧ t.chunks = s.chunks)
    ∧ ((∀ off d, (⟨1, fun _ _ => 0, fun _ _ => Except.ok ⟨"t", some "en"⟩⟩ : TransEnv).api off d
          ≠ Except.error ()) →
        ContiguousFrom 0 (⟨1, 1, 2, ["t"], some "en", [(0, 1)], [(0, 1)]⟩ : TState).chunks
        ∧ (((⟨1, 1, 2, ["t"], some "en", [(0, 1)], [(0, 1)]⟩ : TState).chunks.map
            Prod.snd).sum
          = (⟨1, fun _ _ => 0, fun _ _ => Except.ok ⟨"t", some "en"⟩⟩ : TransEnv).audioLen)) :=
  transcribe_chunk_ceiling_partition
    (⟨1, fun _ _ => 0, fun _ _ => Except.ok ⟨"t", some "en"⟩⟩ : TransEnv)
    (fun _ => Except.error ()) 1 2
    (⟨1, 1, 2, ["t"], some "en", [(0, 1)], [(0, 1)]⟩ : TState) (by decide)

/-! ## Claim C2 theorems -/

theorem transLoop_pathological (det : DetectOracle) :
    ∀ fuel (s : TState), s.offset = 0 →
      transLoop envPathological det fuel s = none := by
  intro fuel
  induction fuel with
  | zero => intro s _; rfl
  | succ n ih =>
      intro s hoff
      have hlt : s.offset < envPathological.audioLen := by
        rw [hoff]; exact Nat.zero_lt_one
      rw [transLoop]
      rcases Nat.eq_zero_or_pos s.maxDur with hd | hd
      · have hsz : ¬ 26000000 < envPathological.size s.offset s.maxDur := by
          simp [envPathological, hd]
        have hok : envPathological.api s.offset s.maxDur = .ok ⟨"", none⟩ := rfl
        rw [transStep_advanced_eq envPathological det s ⟨"", none⟩ hlt hsz hok]
        exact ih _ (by simp [hoff, hd])
      · have hsz : 26000000 < envPathological.size s.offset s.maxDur := by
          simp only [envPathological]
          rw [if_neg (Nat.pos_iff_ne_zero.1 hd)]
          omega
        rw [transStep_oversize_eq envPathological det s hlt hsz]
        exact ih _ hoff

/-- C2 is violated by the code: there is no minimum-duration floor, so on a
pathological input (every nonzero-duration slice encodes above the ceiling,
the empty slice encodes to 0 bytes) the loop shrinks `max_duration` from
its 600000 ms default to 0 and then re-submits an empty chunk at the same
offset forever: the loop never terminates, for any amount of fuel. -/
theorem transcribe_no_min_duration_floor (fuel : Nat) :
    transcribe_audio_whisper envPathological (fun _ => Except.error ()) 600000 fuel
      = none := by
  rw [transcribe_audio_whisper,
    transLoop_pathological (fun _ => Except.error ()) fuel (initTState 600000) rfl]
  rfl

/-! ## Normal-run computation lemmas (no shrink, explicit chunk schedule) -/

theorem initTState_eq_runState (env : TransEnv) (det : DetectOracle)
    (resp : Nat → ChunkResp) (D : Nat) :
    initTState D = runState env det resp D 0 := by
  simp [initTState, runState]

theorem runState_step (env : TransEnv) (det : DetectOracle) (resp : Nat → ChunkResp)
    (D j fuel : Nat)
    (hsz : ∀ off d, env.size off d ≤ 26000000)
    (hj : j * D < env.audioLen)
    (hok : env.api (j * D) D = .ok (resp j)) :
    transLoop env det (fuel + 1) (runState env det resp D j)
      = transLoop env det fuel (runState env det resp D (j + 1)) := by
  rw [transLoop]
  rw [transStep_advanced_eq env det _ (resp j) (by simpa [runState] using hj)
    (by simp only [runState]; exact Nat.not_lt.2 (hsz _ _))
    (by simpa [runState] using hok)]
  cases j with
  | zero => simp [runState, List.range_succ]
  | succ i => simp [runState, List.range_succ, Nat.succ_mul]

theorem runState_steps (env : TransEnv) (det : DetectOracle) (resp : Nat → ChunkResp)
    (D : Nat) (hsz : ∀ off d, env.size off d ≤ 26000000) :
    ∀ m j fuel,
      (∀ i, i < m →
        (j + i) * D < env.audioLen ∧ env.api ((j + i) * D) D = .ok (resp (j + i))) →
      transLoop env det (m + fuel) (runState env det resp D j)
        = transLoop env det fuel (runState env det resp D (j + m)) := by
  intro m
  induction m with
  | zero =>
      intro j fuel _
      rw [Nat.zero_add, Nat.add_zero]
  | succ n ih =>
      intro j fuel h
      have h0 := h 0 (Nat.succ_pos n)
      have harg : ∀ i, i < n →
          (j + 1 + i) * D < env.audioLen
          ∧ env.api ((j + 1 + i) * D) D = .ok (resp (j + 1 + i)) := by
        intro i hi
        have hh := h (i + 1) (by omega)
        rwa [show j + (i + 1) = j + 1 + i by omega] at hh
      rw [show n + 1 + fuel = (n + fuel) + 1 by omega,
        runState_step env det resp D j (n + fuel) hsz (by simpa using h0.1)
          (by simpa using h0.2),
        ih (j + 1) fuel harg, show j + 1 + n = j + (n + 1) by omega]

/-! ## Claim C3 theorem -/

/-- C3: if the endpoint rejects chunk `k` (and accepts chunks `1..k-1`,
with all encoded sizes within the ceiling so the chunk schedule is the
default one), the loop stops at chunk `k`: exactly `k-1` chunks are
transcribed, exactly `k` were submitted, and the function still writes and
returns the newline-joined concatenation of the first `k-1` chunk texts. -/
theorem transcribe_badrequest_partial (env : TransEnv) (det : DetectOracle)
    (resp : Nat → ChunkResp) (D k : Nat)
    (hsz : ∀ off d, env.size off d ≤ 26000000)
    (hk1 : 1 ≤ k)
    (hk : (k - 1) * D < env.audioLen)
    (hok : ∀ j, j < k - 1 → env.api (j * D) D = .ok (resp j))
    (herr : env.api ((k - 1) * D) D = .error ()) :
    (transLoop env det k (initTState D)).map TState.transcriptions
        = some ((List.range (k - 1)).map fun j => (resp j).text)
    ∧ (transLoop env det k (initTState D)).map TState.submitted
        = some ((List.range k).map fun i => (i * D, D))
    ∧ (transcribe_audio_whisper env det D k).map Prod.fst
        = some (String.intercalate "\n" ((List.range (k - 1)).map fun j => (resp j).text)) := by
  have harg : ∀ i, i < k - 1 →
      (0 + i) * D < env.audioLen ∧ env.api ((0 + i) * D) D = .ok (resp (0 + i)) := by
    intro i hi
    have hle : i * D ≤ (k - 1) * D := Nat.mul_le_mul_right D (by omega)
    exact ⟨by simpa using Nat.lt_of_le_of_lt hle hk, by simpa using hok i hi⟩
  have hrun : transLoop env det k (initTState D)
      = some { runState env det resp D (k - 1) with
               submitted := (runState env det resp D (k - 1)).submitted
                 ++ [((k - 1) * D, D)] } := by
    conv_lhs => rw [show k = (k - 1) + 1 by omega]
    rw [initTState_eq_runState env det resp D,
      runState_steps env det resp D hsz (k - 1) 0 1 harg, Nat.zero_add, transLoop,
      transStep_rejected_eq env det _ (by simpa [runState] using hk)
        (by simp only [runState]; exact Nat.not_lt.2 (hsz _ _))
        (by simpa [runState] using herr)]
    rfl
  refine ⟨?_, ?_, ?_⟩
  · rw [hrun]
    simp [runState]
  · rw [hrun]
    simp only [Option.map_some]
    rw [show k = (k - 1) + 1 by omega]
    simp [runState, List.range_succ]
  · rw [transcribe_audio_whisper, hrun]
    simp [finalizeTrans, runState]

theorem transcribe_badrequest_partial_witness :
    (transLoop
        (⟨3, fun _ _ => 0, fun off _ => if off = 2 then Except.error () else
            Except.ok ⟨"a", some "en"⟩⟩ : TransEnv)
        (fun _ => Except.error ()) 2 (initTState 2)).map TState.transcriptions
      = some ((List.range (2 - 1)).map fun _ => (ChunkResp.mk "a" (some "en")).text)
    ∧ (transLoop
        (⟨3, fun _ _ => 0, fun off _ => if off = 2 then Except.error () else
            Except.ok ⟨"a", some "en"⟩⟩ : TransEnv)
        (fun _ => Except.error ()) 2 (initTState 2)).map TState.submitted
      = some ((List.range 2).map fun i => (i * 2, 2))
    ∧ (transcribe_audio_whisper
        (⟨3, fun _ _ => 0, fun off _ => if off = 2 then Except.error () else
            Except.ok ⟨"a", some "en"⟩⟩ : TransEnv)
        (fun _ => Except.error ()) 2 2).map Prod.fst
      = some (String.intercalate "\n"
          ((List.range (2 - 1)).map fun _ => (ChunkResp.mk "a" (some "en")).text)) :=
  transcribe_badrequest_partial
    (⟨3, fun _ _ => 0, fun off _ => if off = 2 then Except.error () else
        Except.ok ⟨"a", some "en"⟩⟩ : TransEnv)
    (fun _ => Except.error ()) (fun _ => ⟨"a", some "en"⟩) 2 2
    (fun _ _ => Nat.zero_le _) (by decide) (by decide) (by decide) (by decide)

/-! ## Claim C4 theorem -/

/-- C4: on a run with no rejections and no shrink (`m` chunks covering the
audio), the returned language comes from the first chunk only, resolved as
the claim states: the API-reported language when present and neither empty
nor "unknown"; otherwise detect_language on the first chunk's text; and
when that still yields "unknown" (or empty), detect_language on the full
newline-joined transcript. -/
theorem transcribe_language_selection (env : TransEnv) (det : DetectOracle)
    (resp : Nat → ChunkResp) (D m : Nat)
    (hsz : ∀ off d, env.size off d ≤ 26000000)
    (hlen : 0 < env.audioLen)
    (hm1 : env.audioLen ≤ m * D)
    (hm2 : ∀ j, j < m → j * D < env.audioLen)
    (hok : ∀ j, j < m → env.api (j * D) D = .ok (resp j)) :
    transcribe_audio_whisper env det D (m + 1)
      = some (String.intercalate "\n" ((List.range m).map fun j => (resp j).text),
          if firstLang det (resp 0) = "" ∨ firstLang det (resp 0) = "unknown" then
            detect_language det
              (String.intercalate "\n" ((List.range m).map fun j => (resp j).text))
          else firstLang det (resp 0))
    ∧ (∀ (r : ChunkResp) (al : String), r.language = some al →
        ¬(al = "" ∨ al = "unknown") → firstLang det r = al)
    ∧ (∀ r : ChunkResp, r.language = none →
        firstLang det r = detect_language det r.text)
    ∧ (∀ (r : ChunkResp) (al : String), r.language = some al →
        (al = "" ∨ al = "unknown") → firstLang det r = detect_language det r.text) := by
  have hm0 : m ≠ 0 := by
    rintro rfl
    simp at hm1
    omega
  have hrun : transLoop env det (m + 1) (initTState D)
      = some (runState env det resp D m) := by
    rw [initTState_eq_runState env det resp D,
      runState_steps env det resp D hsz m 0 1 (fun i hi =>
        ⟨by simpa using hm2 i hi, by simpa using hok i hi⟩),
      Nat.zero_add, transLoop,
      transStep_finished_eq env det _ (by
        simp only [runState]
        exact Nat.not_lt.2 hm1)]
  refine ⟨?_, ?_, ?_, ?_⟩
  · rw [transcribe_audio_whisper, hrun]
    simp [finalizeTrans, runState, hm0]
  · intro r al h hne
    rw [firstLang, h]
    simp [hne]
  · intro r h
    rw [firstLang, h]
  · intro r al h hal
    rw [firstLang, h]
    simp [hal]

theorem transcribe_language_selection_witness :
    transcribe_audio_whisper
        (⟨3, fun _ _ => 0, fun _ _ => Except.ok ⟨"a", some "en"⟩⟩ : TransEnv)
        (fun _ => Except.error ()) 2 (2 + 1)
      = some (String.intercalate "\n"
            ((List.range 2).map fun _ => (ChunkResp.mk "a" (some "en")).text),
          if firstLang (fun _ => Except.error ()) (ChunkResp.mk "a" (some "en")) = ""
              ∨ firstLang (fun _ => Except.error ()) (ChunkResp.mk "a" (some "en"))
                = "unknown" then
            detect_language (fun _ => Except.error ())
              (String.intercalate "\n"
                ((List.range 2).map fun _ => (ChunkResp.mk "a" (some "en")).text))
          else firstLang (fun _ => Except.error ()) (ChunkResp.mk "a" (some "en")))
    ∧ (∀ (r : ChunkResp) (al : String), r.language = some al →
        ¬(al = "" ∨ al = "unknown") → firstLang (fun _ => Except.error ()) r = al)
    ∧ (∀ r : ChunkResp, r.language = none →
        firstLang (fun _ => Except.error ()) r
          = detect_language (fun _ => Except.error ()) r.text)
    ∧ (∀ (r : ChunkResp) (al : String), r.language = some al →
        (al = "" ∨ al = "unknown") →
        firstLang (fun _ => Except.error ()) r
          = detect_language (fun _ => Except.error ()) r.text) :=
  transcribe_language_selection
    (⟨3, fun _ _ => 0, fun _ _ => Except.ok ⟨"a", some "en"⟩⟩ : TransEnv)
    (fun _ => Except.error ()) (fun _ => ⟨"a", some "en"⟩) 2 2
    (fun _ _ => Nat.zero_le _) (by decide) (by decide) (by decide) (by decide)

/-! ## Whitespace-normalization lemmas -/

theorem mem_collapseWS_space :
    ∀ l : List Char, ∀ c ∈ collapseWS l, isPySpace c = true → c = ' ' := by
  intro l
  induction l with
  | nil => intro c hc; simp [collapseWS] at hc
  | cons a rest ih =>
      intro c hc hsp
      cases rest with
      | nil =>
          by_cases ha : isPySpace a
          · rw [collapseWS, if_pos ha] at hc
            simpa using hc
          · rw [collapseWS, if_neg ha] at hc
            simp at hc
            rw [hc] at hsp
            exact absurd hsp (by simpa using ha)
      | cons d t =>
          by_cases ha : isPySpace a
          · rw [collapseWS, if_pos ha] at hc
            by_cases hd : isPySpace d
            · rw [if_pos hd] at hc
              exact ih c hc hsp
            · rw [if_neg hd] at hc
              rcases List.mem_cons.1 hc with h | h
              · exact h
              · exact ih c h hsp
          · rw [collapseWS, if_neg ha] at hc
            rcases List.mem_cons.1 hc with h | h
            · rw [h] at hsp
              exact absurd hsp (by simpa using ha)
            · exact ih c h hsp

theorem collapseWS_cons_of_not_space (d : Char) (t : List Char)
    (hd : ¬ isPySpace d) : collapseWS (d :: t) = d :: collapseWS t := by
  cases t with
  | nil => simp [collapseWS, hd]
  | cons e t2 => rw [collapseWS, if_neg hd]

theorem chain'_collapseWS (l : List Char) :
    List.Chain' (fun a b : Char => ¬(a = ' ' ∧ b = ' ')) (collapseWS l) := by
  induction l with
  | nil => simp [collapseWS]
  | cons a rest ih =>
      cases rest with
      | nil =>
          by_cases ha : isPySpace a
          · rw [collapseWS, if_pos ha]
            simp
          · rw [collapseWS, if_neg ha]
            simp
      | cons d t =>
          by_cases ha : isPySpace a
          · rw [collapseWS, if_pos ha]
            by_cases hd : isPySpace d
            · rw [if_pos hd]
              exact ih
            · rw [if_neg hd]
              rw [List.chain'_cons']
              refine ⟨?_, ih⟩
              intro b hb
              rw [collapseWS_cons_of_not_space d t hd] at hb
              simp at hb
              intro hcon
              rw [hb, hcon.2] at hd
              exact hd (by decide)
          · rw [collapseWS, if_neg ha]
            rw [List.chain'_cons']
            refine ⟨?_, ih⟩
            intro b _
            intro hcon
            rw [hcon.1] at ha
            exact ha (by decide)

theorem head?_dropWhile (p : Char → Bool) :
    ∀ l : List Char, ∀ c, (l.dropWhile p).head? = some c → p c = false := by
  intro l
  induction l with
  | nil => intro c hc; simp [List.dropWhile] at hc
  | cons a t ih =>
      intro c hc
      by_cases ha : p a
      · rw [List.dropWhile_cons, if_pos ha] at hc
        exact ih c hc
      · rw [List.dropWhile_cons, if_neg ha] at hc
        simp at hc
        rw [← hc]
        simpa using ha

theorem getLast?_dropWhile (p : Char → Bool) (l : List Char)
    (hne : l.dropWhile p ≠ []) : (l.dropWhile p).getLast? = l.getLast? := by
  conv_rhs => rw [← List.takeWhile_append_dropWhile p l]
  rw [List.getLast?_append]
  cases h : (l.dropWhile p).getLast? with
  | none => exact absurd (List.getLast?_eq_none_iff.1 h) hne
  | some x => simp

theorem pyStripL_getLast (l : List Char) (c : Char)
    (hc : (pyStripL l).getLast? = some c) : isPySpace c = false := by
  rw [pyStripL, List.getLast?_reverse] at hc
  exact head?_dropWhile isPySpace _ c hc

theorem pyStripL_head (l : List Char) (c : Char)
    (hc : (pyStripL l).head? = some c) : isPySpace c = false := by
  rw [pyStripL, List.head?_reverse] at hc
  have hne : (l.dropWhile isPySpace).reverse.dropWhile isPySpace ≠ [] := by
    intro h
    rw [h] at hc
    simp at hc
  rw [getLast?_dropWhile isPySpace _ hne, List.getLast?_reverse] at hc
  exact head?_dropWhile isPySpace _ c hc

theorem chain'_dropWhile {R : Char → Char → Prop} (p : Char → Bool) :
    ∀ l : List Char, List.Chain' R l → List.Chain' R (l.dropWhile p) := by
  intro l
  induction l with
  | nil => intro h; simp
  | cons a t ih =>
      intro h
      by_cases ha : p a
      · rw [List.dropWhile_cons, if_pos ha]
        exact ih h.tail
      · rw [List.dropWhile_cons, if_neg ha]
        exact h

theorem chain'_pyStripL (l : List Char)
    (h : List.Chain' (fun a b : Char => ¬(a = ' ' ∧ b = ' ')) l) :
    List.Chain' (fun a b : Char => ¬(a = ' ' ∧ b = ' ')) (pyStripL l) := by
  have hsymm : ∀ m : List Char,
      List.Chain' (fun a b : Char => ¬(a = ' ' ∧ b = ' ')) m →
      List.Chain' (fun a b : Char => ¬(a = ' ' ∧ b = ' ')) m.reverse := by
    intro m hm
    rw [List.chain'_reverse]
    exact hm.imp (fun {a b} hr => fun hcon => hr ⟨hcon.2, hcon.1⟩)
  exact hsymm _ (chain'_dropWhile isPySpace _ (hsymm _ (chain'_dropWhile isPySpace l h)))

theorem mem_pyStripL (l : List Char) (c : Char) (hc : c ∈ pyStripL l) : c ∈ l := by
  rw [pyStripL, List.mem_reverse] at hc
  have h1 := (List.dropWhile_sublist (l := (l.dropWhile isPySpace).reverse)
    (p := isPySpace)).subset hc
  rw [List.mem_reverse] at h1
  exact (List.dropWhile_sublist (l := l) (p := isPySpace)).subset h1

theorem mem_normalizeText_space (l : List Char) (c : Char)
    (hc : c ∈ normalizeText l) (hsp : isPySpace c = true) : c = ' ' :=
  mem_collapseWS_space l c (mem_pyStripL _ c hc) hsp

/-! ## Splitting and joining words -/

theorem splitOnSpace_ne_nil : ∀ l : List Char, splitOnSpace l ≠ [] := by
  intro l
  cases l with
  | nil => simp [splitOnSpace]
  | cons c rest =>
      rw [splitOnSpace]
      by_cases hc : c = ' '
      · rw [if_pos hc]
        simp
      · rw [if_neg hc]
        cases h : splitOnSpace rest <;> simp

theorem splitOnSpace_cons_of_ne (c : Char) (t : List Char) (hc : ¬ c = ' ') :
    ∃ w ws, splitOnSpace (c :: t) = (c :: w) :: ws ∧ splitOnSpace t = w :: ws := by
  cases h : splitOnSpace t with
  | nil => exact absurd h (splitOnSpace_ne_nil t)
  | cons w ws =>
      refine ⟨w, ws, ?_, rfl⟩
      rw [splitOnSpace, if_neg hc, h]

theorem joinWords_singleton (w : List Char) : joinWords [w] = w := by
  simp [joinWords]

theorem joinWords_cons₂ (w x : List Char) (t : List (List Char)) :
    joinWords (w :: x :: t) = w ++ ' ' :: joinWords (x :: t) := by
  simp [joinWords, List.intersperse]

theorem joinWords_head_cons (c : Char) (w : List Char) (F : List (List Char)) :
    joinWords ((c :: w) :: F) = c :: joinWords (w :: F) := by
  cases F with
  | nil => rw [joinWords_singleton, joinWords_singleton]
  | cons f F2 => rw [joinWords_cons₂, joinWords_cons₂]; rfl

theorem joinWords_splitOnSpace : ∀ l : List Char, joinWords (splitOnSpace l) = l := by
  intro l
  induction l with
  | nil => simp [splitOnSpace, joinWords]
  | cons c rest ih =>
      by_cases hc : c = ' '
      · rw [splitOnSpace, if_pos hc]
        cases h : splitOnSpace rest with
        | nil => exact absurd h (splitOnSpace_ne_nil rest)
        | cons w ws =>
            rw [joinWords_cons₂, hc, ← h, ih]
            rfl
      · obtain ⟨w, ws, heq, ht⟩ := splitOnSpace_cons_of_ne c rest hc
        rw [heq, joinWords_head_cons, ← ht, ih]

theorem mem_splitOnSpace_chars :
    ∀ l w : List Char, w ∈ splitOnSpace l → ∀ c ∈ w, c ∈ l ∧ ¬ c = ' ' := by
  intro l
  induction l with
  | nil =>
      intro w hw c hcw
      simp [splitOnSpace] at hw
      rw [hw] at hcw
      simp at hcw
  | cons a t ih =>
      intro w hw c hcw
      by_cases ha : a = ' '
      · rw [splitOnSpace, if_pos ha] at hw
        rcases List.mem_cons.1 hw with h | h
        · rw [h] at hcw
          simp at hcw
        · have := ih w h c hcw
          exact ⟨List.mem_cons_of_mem a this.1, this.2⟩
      · obtain ⟨w0, ws0, heq, ht⟩ := splitOnSpace_cons_of_ne a t ha
        rw [heq] at hw
        rcases List.mem_cons.1 hw with h | h
        · rw [h] at hcw
          rcases List.mem_cons.1 hcw with h2 | h2
          · exact ⟨by rw [h2]; exact List.mem_cons_self a t, by rw [h2]; exact ha⟩
          · have := ih w0 (by rw [ht]; exact List.mem_cons_self w0 ws0) c h2
            exact ⟨List.mem_cons_of_mem a this.1, this.2⟩
        · have := ih w (by rw [ht]; exact List.mem_cons_of_mem w0 h) c hcw
          exact ⟨List.mem_cons_of_mem a this.1, this.2⟩

theorem goodWords_wordsOf (T : List Char) : GoodWords (wordsOf (normalizeText T)) := by
  intro w hw
  rw [wordsOf, List.mem_filter] at hw
  obtain ⟨hmem, hne⟩ := hw
  refine ⟨by simpa using hne, ?_⟩
  intro c hcw
  have h1 := mem_splitOnSpace_chars (normalizeText T) w hmem c hcw
  by_contra hsp
  have hsp2 : isPySpace c = true := by simpa using hsp
  exact h1.2 (mem_normalizeText_space T c h1.1 hsp2)

theorem wordsOf_ne_nil_of_head (t : List Char) (e : Char) (t2 : List Char)
    (ht : t = e :: t2) (he : ¬ e = ' ') : wordsOf t ≠ [] := by
  obtain ⟨w, ws, heq, _⟩ := splitOnSpace_cons_of_ne e t2 he
  rw [wordsOf, ht, heq]
  simp

theorem joinWords_wordsOf_normalized :
    ∀ (N : Nat) (n : List Char), n.length ≤ N →
      (∀ c, n.head? = some c → ¬ c = ' ') →
      (∀ c, n.getLast? = some c → ¬ c = ' ') →
      List.Chain' (fun a b : Char => ¬(a = ' ' ∧ b = ' ')) n →
      joinWords (wordsOf n) = n := by
  intro N
  induction N with
  | zero =>
      intro n hlen _ _ _
      have : n = [] := List.length_eq_zero.1 (Nat.le_zero.1 hlen)
      rw [this]
      rfl
  | succ N ih =>
      intro n hlen hh hl hch
      cases n with
      | nil => rfl
      | cons c t =>
          have hc : ¬ c = ' ' := hh c rfl
          cases t with
          | nil =>
              obtain ⟨w, ws, heq, ht⟩ := splitOnSpace_cons_of_ne c [] hc
              rw [show splitOnSpace ([] : List Char) = [[]] from rfl] at ht
              injection ht with h1 h2
              subst h1
              subst h2
              rw [wordsOf, heq, List.filter_cons]
              simp [joinWords_singleton]
          | cons d t2 =>
              by_cases hd : d = ' '
              · subst hd
                have ht2ne : t2 ≠ [] := by
                  rintro rfl
                  exact hl ' ' rfl rfl
                obtain ⟨e, t3, het⟩ : ∃ e t3, t2 = e :: t3 :=
                  List.exists_cons_of_ne_nil ht2ne
                have hch2 := (List.chain'_cons.1 hch).2
                have hech : ¬ e = ' ' := by
                  rw [het] at hch2
                  intro hcon
                  exact (List.chain'_cons.1 hch2).1 ⟨rfl, hcon⟩
                obtain ⟨w, ws, heq, ht⟩ := splitOnSpace_cons_of_ne c (' ' :: t2) hc
                have hsp : splitOnSpace (' ' :: t2) = [] :: splitOnSpace t2 := by
                  rw [splitOnSpace, if_pos rfl]
                rw [hsp] at ht
                injection ht with h1 h2
                subst h1
                subst h2
                have hW : wordsOf t2 ≠ [] := wordsOf_ne_nil_of_head t2 e t3 het hech
                have hjw : joinWords (wordsOf t2) = t2 := by
                  apply ih t2 (by simp at hlen; omega)
                  · intro x hx
                    rw [het] at hx
                    injection hx with hx
                    rw [← hx]
                    exact hech
                  · intro x hx
                    apply hl
                    rw [List.getLast?_cons_cons]
                    rw [het] at hx ⊢
                    rw [List.getLast?_cons_cons]
                    exact hx
                  · rw [het] at hch2 ⊢
                    exact hch2.tail
                have hwn : wordsOf (c :: ' ' :: t2) = [c] :: wordsOf t2 := by
                  rw [wordsOf, heq, List.filter_cons]
                  simp [wordsOf]
                rw [hwn]
                cases hWs : wordsOf t2 with
                | nil => exact absurd hWs hW
                | cons W0 Wr =>
                    rw [joinWords_cons₂, ← hWs, hjw]
                    rfl
              · obtain ⟨w2, ws2, heqt, ht2⟩ := splitOnSpace_cons_of_ne d t2 hd
                obtain ⟨w, ws, heq, ht⟩ := splitOnSpace_cons_of_ne c (d :: t2) hc
                rw [heqt] at ht
                injection ht with h1 h2
                subst h2
                rw [← h1] at heq
                have hjt : joinWords (wordsOf (d :: t2)) = d :: t2 := by
                  apply ih (d :: t2) (by simp at hlen ⊢; omega)
                  · intro x hx
                    injection hx with hx
                    rw [← hx]
                    exact hd
                  · intro x hx
                    exact hl x (by rw [List.getLast?_cons_cons]; exact hx)
                  · exact hch.tail
                have hwa : wordsOf (c :: d :: t2)
                    = (c :: d :: w2) :: List.filter (fun w => !w.isEmpty) ws2 := by
                  rw [wordsOf, heq, List.filter_cons]
                  simp
                have hwb : wordsOf (d :: t2)
                    = (d :: w2) :: List.filter (fun w => !w.isEmpty) ws2 := by
                  rw [wordsOf, heqt, List.filter_cons]
                  simp
                rw [hwa, joinWords_head_cons, ← hwb, hjt]

theorem normalizeText_head (T : List Char) (c : Char)
    (hc : (normalizeText T).head? = some c) : ¬ c = ' ' := by
  intro hcon
  have := pyStripL_head (collapseWS T) c hc
  rw [hcon] at this
  simp [isPySpace] at this

theorem normalizeText_getLast (T : List Char) (c : Char)
    (hc : (normalizeText T).getLast? = some c) : ¬ c = ' ' := by
  intro hcon
  have := pyStripL_getLast (collapseWS T) c hc
  rw [hcon] at this
  simp [isPySpace] at this

theorem chain'_normalizeText (T : List Char) :
    List.Chain' (fun a b : Char => ¬(a = ' ' ∧ b = ' ')) (normalizeText T) :=
  chain'_pyStripL (collapseWS T) (chain'_collapseWS T)

/-- The words of the normalized text joined with single spaces give back
the normalized text. -/
theorem joinWords_wordsOf_normalizeText (T : List Char) :
    joinWords (wordsOf (normalizeText T)) = normalizeText T :=
  joinWords_wordsOf_normalized (normalizeText T).length (normalizeText T) le_rfl
    (normalizeText_head T) (normalizeText_getLast T) (chain'_normalizeText T)

/-! ## docLen lemmas -/

theorem docLen_cons (w : List Char) (ws : List (List Char)) :
    docLen (w :: ws) = w.length + (if ws = [] then 0 else 1 + docLen ws) := by
  cases ws with
  | nil => simp [docLen]
  | cons x t => simp [docLen]; omega

theorem docLen_append (xs ys : List (List Char)) :
    docLen (xs ++ ys)
      = docLen xs + docLen ys + (if xs = [] ∨ ys = [] then 0 else 1) := by
  induction xs with
  | nil => simp [docLen]
  | cons x t ih =>
      rw [List.cons_append, docLen_cons, docLen_cons, ih]
      by_cases ht : t = []
      · subst ht
        by_cases hy : ys = []
        · simp [hy, docLen]
        · simp [hy, docLen]
          omega
      · have hty : ¬ t ++ ys = [] := by simp [ht]
        by_cases hy : ys = []
        · simp [ht, hty, hy]
          omega
        · simp [ht, hty, hy]
          omega

theorem docLen_append_one (ws : List (List Char)) (w : List Char) :
    docLen (ws ++ [w]) = docLen ws + w.length + (if ws = [] then 0 else 1) := by
  rw [docLen_append]
  simp [docLen]

theorem docLen_prefix_le (xs ys : List (List Char)) :
    docLen xs ≤ docLen (xs ++ ys) := by
  rw [docLen_append]
  omega

theorem length_joinWords (ws : List (List Char)) :
    (joinWords ws).length = docLen ws := by
  induction ws with
  | nil => rfl
  | cons w t ih =>
      cases t with
      | nil => rw [joinWords_singleton]; rfl
      | cons x t2 =>
          rw [joinWords_cons₂, docLen_cons]
          simp at ih ⊢
          omega

/-! ## popLoop and mergeGo structure -/

theorem popLoop_spec (S O L : Nat) :
    ∀ (cur : List (List Char)) (total : Nat), total = docLen cur →
      ∃ k, k ≤ cur.length
        ∧ popLoop S O L cur total = (cur.drop k, docLen (cur.drop k)) := by
  intro cur
  induction cur with
  | nil =>
      intro total htot
      refine ⟨0, Nat.le_refl 0, ?_⟩
      rw [popLoop, htot]
      rfl
  | cons w rest ih =>
      intro total htot
      rw [popLoop]
      by_cases hcond : total > O ∨ (total + L + 1 > S ∧ total > 0)
      · rw [if_pos hcond]
        have htot2 : total - (w.length + if rest = [] then 0 else 1) = docLen rest := by
          rw [htot, docLen_cons]
          by_cases hr : rest = []
          · simp [hr, docLen]
          · simp [hr, docLen]
            omega
        obtain ⟨k, hk, heq⟩ := ih _ htot2
        exact ⟨k + 1, by simp; omega, by rw [heq]; rfl⟩
      · rw [if_neg hcond]
        refine ⟨0, Nat.zero_le _, ?_⟩
        rw [htot]
        rfl

/-- When all the splits fit in one chunk, the merge loop never overflows and
produces at most one chunk. -/
theorem mergeGo_small (S O : Nat) :
    ∀ (rest docs cur : List (List Char)) (total : Nat),
      total = docLen cur → docLen (cur ++ rest) ≤ S →
      ∃ dd : List (List Char), dd.length ≤ 1 ∧ mergeGo S O docs cur total rest = docs ++ dd := by
  intro rest
  induction rest with
  | nil =>
      intro docs cur total htot hle
      rw [mergeGo]
      cases h : joinDocs cur with
      | none => exact ⟨[], by simp, by simp⟩
      | some d => exact ⟨[d], by simp, rfl⟩
  | cons w rest2 ih =>
      intro docs cur total htot hle
      have hfit : ¬ total + w.length + (if cur = [] then 0 else 1) > S := by
        have h1 : docLen (cur ++ [w]) ≤ docLen ((cur ++ [w]) ++ rest2) :=
          docLen_prefix_le _ _

        rw [List.append_assoc] at h1
        have h2 : docLen (cur ++ [w]) ≤ S := Nat.le_trans h1 hle
        rw [docLen_append_one] at h2
        omega
      rw [mergeGo, if_neg (by intro hcon; exact hfit hcon.1)]
      apply ih
      · rw [docLen_append_one]
        omega
      · rw [List.append_assoc]
        exact hle

theorem joinWords_good_props :
    ∀ ws : List (List Char), ws ≠ [] → GoodWords ws →
      joinWords ws ≠ []
      ∧ (∀ c, (joinWords ws).head? = some c → isPySpace c = false)
      ∧ (∀ c, (joinWords ws).getLast? = some c → isPySpace c = false) := by
  intro ws
  induction ws with
  | nil => intro h; exact absurd rfl h
  | cons w t ih =>
      intro _ hg
      have hw := hg w (List.mem_cons_self w t)
      cases t with
      | nil =>
          rw [joinWords_singleton]
          refine ⟨hw.1, ?_, ?_⟩
          · intro c hc
            exact hw.2 c (List.mem_of_mem_head? (by rw [hc]; rfl))
          · intro c hc
            exact hw.2 c (List.mem_of_mem_getLast? (by rw [hc]; rfl))
      | cons x t2 =>
          have iht := ih (by simp) (fun u hu => hg u (List.mem_cons_of_mem w hu))
          rw [joinWords_cons₂]
          have hJne : joinWords (x :: t2) ≠ [] := iht.1
          refine ⟨by simp [hw.1], ?_, ?_⟩
          · intro c hc
            rw [List.head?_append] at hc
            cases hwd : w with
            | nil => exact absurd hwd hw.1
            | cons a u =>
                rw [hwd] at hc
                simp at hc
                exact hw.2 c (by rw [hwd, ← hc]; exact List.mem_cons_self a u)
          · intro c hc
            have h2 : (w ++ ' ' :: joinWords (x :: t2)).getLast?
                = (' ' :: joinWords (x :: t2)).getLast? := by
              rw [List.getLast?_append]
              cases hx : (' ' :: joinWords (x :: t2)).getLast? with
              | none => exact absurd (List.getLast?_eq_none_iff.1 hx) (by simp)
              | some y => simp
            rw [h2] at hc
            cases hJ : joinWords (x :: t2) with
            | nil => exact absurd hJ hJne
            | cons j0 jr =>
                rw [hJ, List.getLast?_cons_cons] at hc
                exact iht.2.2 c (by rw [hJ]; exact hc)

theorem pyStripL_eq_self (l : List Char)
    (hh : ∀ c, l.head? = some c → isPySpace c = false)
    (hl : ∀ c, l.getLast? = some c → isPySpace c = false) :
    pyStripL l = l := by
  cases l with
  | nil => rfl
  | cons a t =>
      have h1 : (a :: t).dropWhile isPySpace = a :: t := by
        rw [List.dropWhile_cons, if_neg (by simp [hh a rfl])]
      rw [pyStripL, h1]
      cases hrev : (a :: t).reverse with
      | nil => exact absurd hrev (by simp)
      | cons b r =>
          have hb : (a :: t).getLast? = some b := by
            rw [← List.head?_reverse, hrev]
            rfl
          rw [List.dropWhile_cons, if_neg (by simp [hl b hb])]
          have h3 := congrArg List.reverse hrev
          rw [List.reverse_reverse] at h3
          exact h3.symm

theorem joinDocs_good (ws : List (List Char)) (hne : ws ≠ []) (hg : GoodWords ws) :
    joinDocs ws = some (joinWords ws) := by
  obtain ⟨hjne, hh, hlg⟩ := joinWords_good_props ws hne hg
  rw [joinDocs, pyStripL_eq_self _ hh hlg, if_neg hjne]

theorem sliceW_append (ws zs : List (List Char)) (a b : Nat) (hb : b ≤ ws.length) :
    sliceW (ws ++ zs) a b = sliceW ws a b := by
  rw [sliceW, sliceW]
  rcases Nat.le_total a b with hab | hab
  · rw [List.drop_append_of_le_length (Nat.le_trans hab hb),
      List.take_append_of_le_length (by rw [List.length_drop]; omega)]
  · rw [Nat.sub_eq_zero_of_le hab]
    rfl

theorem sliceW_to_end (ws : List (List Char)) (a : Nat) :
    sliceW ws a ws.length = ws.drop a := by
  rw [sliceW]
  apply List.take_of_length_le
  rw [List.length_drop]

theorem mergeGo_nil_some (S O total : Nat) (docs cur : List (List Char))
    (d : List Char) (h : joinDocs cur = some d) :
    mergeGo S O docs cur total [] = docs ++ [d] := by
  rw [mergeGo, h]

theorem mergeGo_nil_none (S O total : Nat) (docs cur : List (List Char))
    (h : joinDocs cur = none) :
    mergeGo S O docs cur total [] = docs := by
  rw [mergeGo, h]

/-- Master invariant lemma for langchain's `_merge_splits` loop: the chunks
it produces are joins of whole-word windows whose bounds chain with overlap
(`q.1 ≤ p.2`) and strict progress (`p.2 < q.2`), the first window starting
at word 0 and the last ending at the word count. -/
theorem mergeGo_spec (S O : Nat) :
    ∀ (rest done : List (List Char)) (ivs : List (Nat × Nat)) (c : Nat)
      (docs : List (List Char)) (total : Nat),
      GoodWords (done ++ rest) →
      c ≤ done.length →
      total = docLen (done.drop c) →
      docs = ivs.map (fun p => joinWords (sliceW done p.1 p.2)) →
      (∀ p ∈ ivs, p.1 < p.2 ∧ p.2 ≤ done.length) →
      List.Chain' (fun p q : Nat × Nat => q.1 ≤ p.2 ∧ p.2 < q.2) ivs →
      (∀ p, ivs.head? = some p → p.1 = 0) →
      (ivs = [] → c = 0) →
      (∀ p, ivs.getLast? = some p → c ≤ p.2 ∧ p.2 < done.length) →
      ∃ ivs2 : List (Nat × Nat),
        mergeGo S O docs (done.drop c) total rest
          = ivs2.map (fun p => joinWords (sliceW (done ++ rest) p.1 p.2))
        ∧ (∀ p ∈ ivs2, p.1 < p.2 ∧ p.2 ≤ (done ++ rest).length)
        ∧ List.Chain' (fun p q : Nat × Nat => q.1 ≤ p.2 ∧ p.2 < q.2) ivs2
        ∧ (∀ p, ivs2.head? = some p → p.1 = 0)
        ∧ (ivs2 = [] → done ++ rest = [])
        ∧ (∀ p, ivs2.getLast? = some p → p.2 = (done ++ rest).length) := by
  intro rest
  induction rest with
  | nil =>
      intro done ivs c docs total hgood hc htot hdocs hbounds hchain hhead hemp hlast
      by_cases hcd : c = done.length
      · have hcur : done.drop c = [] := by rw [hcd, List.drop_length]
        have hivs : ivs = [] := by
          cases hgl : ivs.getLast? with
          | none => exact List.getLast?_eq_none_iff.1 hgl
          | some p =>
              have h2 := hlast p hgl
              omega
        have hdone : done = [] := by
          have hc0 : c = 0 := hemp hivs
          have : done.length = 0 := by omega
          exact List.length_eq_zero.1 this
        refine ⟨[], ?_, by simp, by simp, by simp, fun _ => by simp [hdone], by simp⟩
        rw [hcur, hdocs, hivs]
        rw [mergeGo_nil_none S O total _ _ (by rw [joinDocs]; rfl)]
        rfl
      · have hclt : c < done.length := Nat.lt_of_le_of_ne hc hcd
        have hcur_ne : done.drop c ≠ [] := by
          intro h
          have := congrArg List.length h
          rw [List.length_drop] at this
          simp at this
          omega
        have hgooddone : GoodWords done := by
          intro u hu
          exact hgood u (by rw [List.append_nil]; exact hu)
        have hjd : joinDocs (done.drop c) = some (joinWords (done.drop c)) :=
          joinDocs_good _ hcur_ne (fun u hu => hgooddone u (List.drop_subset c done hu))
        refine ⟨ivs ++ [(c, done.length)], ?_, ?_, ?_, ?_, ?_, ?_⟩
        · rw [mergeGo_nil_some S O total _ _ _ hjd, List.append_nil, List.map_append,
            hdocs]
          simp [sliceW_to_end]
        · intro p hp
          rcases List.mem_append.1 hp with hp | hp
          · have := hbounds p hp
            simp
            omega
          · simp at hp
            rw [hp]
            simp
            omega
        · rw [List.chain'_append]
          refine ⟨hchain, List.chain'_singleton _, ?_⟩
          intro x hx y hy
          simp at hy
          rw [← hy]
          have := hlast x (by simpa using hx)
          exact ⟨this.1, this.2⟩
        · intro p hp
          cases hivs : ivs with
          | nil =>
              rw [hivs] at hp
              simp at hp
              rw [← hp]
              exact hemp hivs
          | cons q t =>
              rw [hivs] at hp
              simp at hp
              exact hhead p (by rw [hivs, ← hp]; rfl)
        · intro h
          simp at h
        · intro p hp
          rw [List.getLast?_concat] at hp
          injection hp with hp
          rw [← hp, List.append_nil]
  | cons w rest2 ih =>
      intro done ivs c docs total hgood hc htot hdocs hbounds hchain hhead hemp hlast
      have hgood2 : GoodWords ((done ++ [w]) ++ rest2) := by
        intro u hu
        apply hgood
        rw [List.append_assoc] at hu
        exact hu
      have hassoc : (done ++ [w]) ++ rest2 = done ++ w :: rest2 := by
        rw [List.append_assoc]
        rfl
      rw [mergeGo]
      by_cases hovf : total + w.length + (if done.drop c = [] then 0 else 1) > S
          ∧ done.drop c ≠ []
      · rw [if_pos hovf]
        have hclt : c < done.length := by
          by_contra hcon
          exact hovf.2 (by rw [List.drop_eq_nil_of_le (by omega)])
        have hgooddone : GoodWords done := by
          intro u hu
          exact hgood u (List.mem_append_left _ hu)
        have hjd : joinDocs (done.drop c) = some (joinWords (done.drop c)) :=
          joinDocs_good _ hovf.2 (fun u hu => hgooddone u (List.drop_subset c done hu))
        obtain ⟨k, hk, hpop⟩ := popLoop_spec S O w.length (done.drop c) total htot
        rw [List.length_drop] at hk
        have hck : c + k ≤ done.length := by omega
        simp only [hjd, hpop]
        have hdd : (done.drop c).drop k = done.drop (c + k) := List.drop_drop k c done
        have hexp : (done.drop c).drop k ++ [w] = (done ++ [w]).drop (c + k) := by
          rw [hdd, List.drop_append_of_le_length hck]
        rw [hexp]
        obtain ⟨ivs2, hm1, hm2, hm3, hm4, hm5, hm6⟩ :=
          ih (done ++ [w]) (ivs ++ [(c, done.length)]) (c + k)
            (docs ++ [joinWords (done.drop c)])
            (docLen ((done.drop c).drop k) + w.length
              + if (done.drop c).drop k = [] then 0 else 1)
            hgood2
            (by simp; omega)
            (by rw [← hexp, docLen_append_one, hdd])
            (by
              rw [List.map_append, hdocs]
              congr 1
              · apply List.map_congr_left
                intro p hp
                rw [sliceW_append done [w] p.1 p.2 (hbounds p hp).2]
              · simp [sliceW_append done [w] c done.length (Nat.le_refl _),
                  sliceW_to_end])
            (by
              intro p hp
              rcases List.mem_append.1 hp with hp | hp
              · have := hbounds p hp
                simp
                omega
              · simp at hp
                rw [hp]
                simp
                omega)
            (by
              rw [List.chain'_append]
              refine ⟨hchain, List.chain'_singleton _, ?_⟩
              intro x hx y hy
              simp at hy
              rw [← hy]
              have := hlast x (by simpa using hx)
              exact ⟨this.1, this.2⟩)
            (by
              intro p hp
              cases hivs : ivs with
              | nil =>
                  rw [hivs] at hp
                  simp at hp
                  rw [← hp]
                  exact hemp hivs
              | cons q t =>
                  rw [hivs] at hp
                  simp at hp
                  exact hhead p (by rw [hivs, ← hp]; rfl))
            (by intro h; simp at h)
            (by
              intro p hp
              rw [List.getLast?_concat] at hp
              injection hp with hp
              rw [← hp]
              simp
              omega)
        rw [hassoc] at hm1 hm2 hm5 hm6
        exact ⟨ivs2, hm1, hm2, hm3, hm4, hm5, hm6⟩
      · rw [if_neg hovf]
        have hexp : done.drop c ++ [w] = (done ++ [w]).drop c :=
          (List.drop_append_of_le_length hc).symm
        rw [hexp]
        obtain ⟨ivs2, hm1, hm2, hm3, hm4, hm5, hm6⟩ :=
          ih (done ++ [w]) ivs c docs
            (total + w.length + if done.drop c = [] then 0 else 1)
            hgood2
            (by simp; omega)
            (by rw [← hexp, docLen_append_one, htot])
            (by
              rw [hdocs]
              apply List.map_congr_left
              intro p hp
              rw [sliceW_append done [w] p.1 p.2 (hbounds p hp).2])
            (by
              intro p hp
              have := hbounds p hp
              simp
              omega)
            hchain
            hhead
            hemp
            (by
              intro p hp
              have := hlast p hp
              simp
              omega)
        rw [hassoc] at hm1 hm2 hm5 hm6
        exact ⟨ivs2, hm1, hm2, hm3, hm4, hm5, hm6⟩

theorem getLast?_cons_getD (b x : Nat) (bs : List Nat) :
    ((b :: bs).getLast?.getD x) = bs.getLast?.getD b := by
  cases bs with
  | nil => rfl
  | cons e t =>
      rw [List.getLast?_cons_cons]
      cases h : (e :: t).getLast? with
      | none => exact absurd (List.getLast?_eq_none_iff.1 h) (by simp)
      | some g => rfl

theorem chain'_lt_le_getLast :
    ∀ (bs : List Nat) (a : Nat), List.Chain' (· < ·) (a :: bs) →
      a ≤ bs.getLast?.getD a := by
  intro bs
  induction bs with
  | nil => intro a _; simp
  | cons b bs' ihb =>
      intro a h
      have h1 : a < b := (List.chain'_cons.1 h).1
      have h2 := ihb b (List.chain'_cons.1 h).2
      rw [getLast?_cons_getD]
      omega

theorem partsJoin (ws : List (List Char)) :
    ∀ (bs : List Nat) (a : Nat), List.Chain' (· < ·) (a :: bs) →
      (((a :: bs).zip bs).map (fun ab => sliceW ws ab.1 ab.2)).flatten
        = (ws.drop a).take (bs.getLast?.getD a - a) := by
  intro bs
  induction bs with
  | nil => intro a _; simp
  | cons b bs' ihb =>
      intro a h
      have hab : a < b := (List.chain'_cons.1 h).1
      have hchb : List.Chain' (· < ·) (b :: bs') := (List.chain'_cons.1 h).2
      have hble := chain'_lt_le_getLast bs' b hchb
      rw [show (a :: b :: bs').zip (b :: bs') = (a, b) :: ((b :: bs').zip bs') from rfl,
        List.map_cons, List.flatten_cons, ihb b hchb, getLast?_cons_getD]
      have h1 : (ws.drop a).drop (b - a) = ws.drop b := by
        rw [List.drop_drop]
        congr 1
        omega
      rw [show bs'.getLast?.getD b - a = (b - a) + (bs'.getLast?.getD b - b) by omega,
        List.take_add, h1]
      rfl

theorem nonOverlapParts_flatten (ws : List (List Char)) (ivs : List (Nat × Nat))
    (hb : ∀ p ∈ ivs, p.1 < p.2)
    (hch : List.Chain' (fun p q : Nat × Nat => q.1 ≤ p.2 ∧ p.2 < q.2) ivs)
    (hemp : ivs = [] → ws = [])
    (hlast : ∀ p, ivs.getLast? = some p → p.2 = ws.length) :
    (nonOverlapParts ws ivs).flatten = ws := by
  cases hivs : ivs with
  | nil =>
      rw [nonOverlapParts]
      simp [hemp hivs]
  | cons q t =>
      have hch0 : List.Chain' (· < ·) (0 :: (ivs.map Prod.snd)) := by
        rw [List.chain'_cons']
        constructor
        · intro y hy
          rw [hivs] at hy
          simp at hy
          have := hb q (by rw [hivs]; exact List.mem_cons_self q t)
          omega
        · rw [List.chain'_map]
          exact hch.imp (fun {p r} hpr => hpr.2)
      have hgl : ∃ g, ivs.getLast? = some g := by
        rw [hivs]
        cases hx : (q :: t).getLast? with
        | none => exact absurd (List.getLast?_eq_none_iff.1 hx) (by simp)
        | some g => exact ⟨g, rfl⟩
      obtain ⟨g, hg⟩ := hgl
      have hgd : (ivs.map Prod.snd).getLast?.getD 0 = ws.length := by
        rw [List.getLast?_map, hg]
        exact hlast g hg
      rw [nonOverlapParts, ← hivs, partsJoin ws (ivs.map Prod.snd) 0 hch0, hgd]
      simp

/-! ## Claim C9 theorem -/

/-- C9: split_text first collapses whitespace runs to single spaces; its
chunks are space-joins of whole consecutive words of the normalized text
(no word is ever truncated); consecutive chunk windows overlap
(`q.1 ≤ p.2`) while making strict progress, the first window starts at word
0, and the concatenation of the non-overlapping spans is exactly the word
sequence of the normalized text, whose space-join is the normalized text
itself. -/
theorem split_text_reconstruction (T : List Char) (S O : Nat) (_hO : O < S) :
    ∃ ivs : List (Nat × Nat),
      split_text T S O
        = ivs.map (fun p => joinWords (sliceW (wordsOf (normalizeText T)) p.1 p.2))
      ∧ List.Chain' (fun p q : Nat × Nat => q.1 ≤ p.2 ∧ p.2 < q.2) ivs
      ∧ (∀ p ∈ ivs, p.1 < p.2 ∧ p.2 ≤ (wordsOf (normalizeText T)).length)
      ∧ (∀ p, ivs.head? = some p → p.1 = 0)
      ∧ (nonOverlapParts (wordsOf (normalizeText T)) ivs).flatten
          = wordsOf (normalizeText T)
      ∧ joinWords (wordsOf (normalizeText T)) = normalizeText T := by
  obtain ⟨ivs2, h1, h2, h3, h4, h5, h6⟩ :=
    mergeGo_spec S O (wordsOf (normalizeText T)) [] [] 0 [] 0
      (by intro u hu; exact goodWords_wordsOf T u (by simpa using hu))
      (by simp)
      (by simp [docLen])
      rfl
      (by simp)
      (by simp)
      (by simp)
      (fun _ => rfl)
      (by simp)
  rw [List.nil_append] at h1 h2 h5 h6
  refine ⟨ivs2, ?_, h3, h2, h4, ?_, joinWords_wordsOf_normalizeText T⟩
  · rw [split_text, mergeSplits, ← h1]
    rfl
  · exact nonOverlapParts_flatten _ ivs2 (fun p hp => (h2 p hp).1) h3 h5 h6

theorem split_text_reconstruction_witness :
    ∃ ivs : List (Nat × Nat),
      split_text "ab cd".data 5 1
        = ivs.map (fun p =>
            joinWords (sliceW (wordsOf (normalizeText "ab cd".data)) p.1 p.2))
      ∧ List.Chain' (fun p q : Nat × Nat => q.1 ≤ p.2 ∧ p.2 < q.2) ivs
      ∧ (∀ p ∈ ivs, p.1 < p.2 ∧ p.2 ≤ (wordsOf (normalizeText "ab cd".data)).length)
      ∧ (∀ p, ivs.head? = some p → p.1 = 0)
      ∧ (nonOverlapParts (wordsOf (normalizeText "ab cd".data)) ivs).flatten
          = wordsOf (normalizeText "ab cd".data)
      ∧ joinWords (wordsOf (normalizeText "ab cd".data)) = normalizeText "ab cd".data :=
  split_text_reconstruction "ab cd".data 5 1 (by decide)

/-! ## Claim C8 theorems -/

theorem process_text_chunks_eq (ans : AnswerOracle) :
    ∀ chunks : List (List Char), process_text_chunks ans chunks
      = (chunks.map (fun ch => ans ch ++ ['\n', '\n'])).flatten := by
  have hgen : ∀ (chunks : List (List Char)) (acc : List Char),
      chunks.foldl (fun acc c => acc ++ ans c ++ ['\n', '\n']) acc
        = acc ++ (chunks.map (fun ch => ans ch ++ ['\n', '\n'])).flatten := by
    intro chunks
    induction chunks with
    | nil => intro acc; simp
    | cons ch t iha =>
        intro acc
        rw [List.foldl_cons, iha]
        simp

  intro chunks
  rw [process_text_chunks, hgen]
  rfl

theorem split_text_le_one (T : List Char) (S O : Nat)
    (hlen : (normalizeText T).length ≤ S) : (split_text T S O).length ≤ 1 := by
  have hdl : docLen ([] ++ wordsOf (normalizeText T)) ≤ S := by
    rw [List.nil_append, ← length_joinWords, joinWords_wordsOf_normalizeText]
    exact hlen
  obtain ⟨dd, hdd, heq⟩ :=
    mergeGo_small S O (wordsOf (normalizeText T)) [] [] 0 rfl hdl
  rw [split_text, mergeSplits, heq]
  simpa using hdd

/-- C8: create_handbook summarizes in a single sectioning call exactly when
the token count is below 16000; otherwise it routes through
split_text(chunk_size=30000 characters, chunk_overlap=1000), each chunk
processed independently and concatenated in order; and because the chunker
measures characters, at most one chunk is produced unless the
whitespace-normalized character count exceeds 30000 (so a 20000-token text
produces two or more chunks only when its character count does). -/
theorem create_handbook_gating (efm : EncForModel) (ge : GetEncoding)
    (ans : AnswerOracle) (T : List Char) :
    (num_tokens_from_string efm ge T "gpt-4o-mini" < 16000 →
      create_handbook_md efm ge ans T = ans T)
    ∧ (¬ num_tokens_from_string efm ge T "gpt-4o-mini" < 16000 →
      create_handbook_md efm ge ans T
        = process_text_chunks ans (split_text T 30000 1000))
    ∧ (∀ chunks, process_text_chunks ans chunks
        = (chunks.map (fun ch => ans ch ++ ['\n', '\n'])).flatten)
    ∧ ((normalizeText T).length ≤ 30000 → (split_text T 30000 1000).length ≤ 1) := by
  refine ⟨?_, ?_, process_text_chunks_eq ans, split_text_le_one T 30000 1000⟩
  · intro h
    rw [create_handbook_md, if_pos h]
  · intro h
    rw [create_handbook_md, if_neg h]

theorem create_handbook_gating_witness :
    (create_handbook_md (fun _ => none) (fun _ _ => []) (fun t => t) "hi".data
      = "hi".data)
    ∧ (create_handbook_md (fun _ => none) (fun _ _ => List.replicate 15990 0)
        (fun t => t) "hi".data
      = process_text_chunks (fun t => t) (split_text "hi".data 30000 1000))
    ∧ (process_text_chunks (fun t => t) [['a']]
      = ([['a']].map (fun ch => (fun t : List Char => t) ch ++ ['\n', '\n'])).flatten)
    ∧ (split_text "hi".data 30000 1000).length ≤ 1 :=
  ⟨(create_handbook_gating (fun _ => none) (fun _ _ => []) (fun t => t) "hi".data).1
      (by decide),
   (create_handbook_gating (fun _ => none) (fun _ _ => List.replicate 15990 0)
      (fun t => t) "hi".data).2.1
      (by simp only [num_tokens_from_string, List.length_replicate]; omega),
   (create_handbook_gating (fun _ => none) (fun _ _ => []) (fun t => t) "hi".data).2.2.1
      [['a']],
   (create_handbook_gating (fun _ => none) (fun _ _ => []) (fun t => t) "hi".data).2.2.2
      (by decide)⟩

end AVT
